import Mathlib

/-!
# Formal model of the Tiny-Projects microservices

This file embeds the two HTTP microservices of the repository:

* `json_formatter/app/main.py` — the Normalizer: a `/api/format` handler that
  replaces single quotes by double quotes, parses the result as JSON and
  either re-serializes it or reports structured diagnostics.
* `markdown_to_html_pdf/app/main.py` — the Renderer: `/convert/paste` and
  `/convert/upload` handlers that validate their input and delegate the
  conversion to external engines (markdown2, WeasyPrint).

The handlers are embedded directly from the Python source.  The external
collaborators are treated as follows:

* the CPython `json` library (`json.loads` / `json.dumps`), whose behaviour
  the Normalizer claims depend on in detail, is modelled faithfully after
  CPython's `json` package (scanner, decoder and encoder semantics,
  including error messages and 0-based failure offsets turned into 1-based
  line/column diagnostics).  Numbers with a fraction or exponent part parse
  to IEEE-754 floats in CPython; float arithmetic is out of scope, so such
  numbers are carried as their source token (constructor `JValue.flo`).
* `markdown2.markdown`, the static `HTML_TEMPLATE` text and
  `weasyprint.HTML(...).write_pdf` are opaque to every claim considered
  here and are abstracted as parameters (`RenderEnv`).

All recursive functions on the parsing path are fuel-structural so that
concrete runs reduce definitionally.
-/

/-! ## Basic character and digit utilities -/

/-- The single-quote character `'`. -/
def sqChar : Char := Char.ofNat 39

/-- Decimal digit character for `d < 10`. -/
def digitCh (d : Nat) : Char := Char.ofNat (48 + d)

/-- Lowercase hexadecimal digit character for `d < 16`. -/
def hexDigitCh (d : Nat) : Char := if d < 10 then Char.ofNat (48 + d) else Char.ofNat (87 + d)

/-- Decimal digits of a natural number, most significant first (fuel-structural;
the fuel is an upper bound on the number of digits, `n` itself is enough). -/
def natDigitsAux : Nat → Nat → List Char → List Char
  | 0, n, acc => digitCh (n % 10) :: acc
  | fuel + 1, n, acc =>
      if n < 10 then digitCh n :: acc
      else natDigitsAux fuel (n / 10) (digitCh (n % 10) :: acc)

/-- Decimal representation of a natural number, as `repr` of a Python `int`. -/
def natDigits (n : Nat) : List Char := natDigitsAux n n []

/-- Decimal representation of an integer, as `repr` of a Python `int`. -/
def intRepr (n : Int) : List Char :=
  if n < 0 then '-' :: natDigits (-n).toNat else natDigits n.toNat

/-- Python `repr` of a one-character string, as interpolated into the
`json` error messages `"Invalid control character {0!r} at"` and
`"Invalid \\escape: {0!r}"`.  Covers the printable-ASCII and C0-control
cases that those messages can receive; other characters are rendered
verbatim between quotes (an approximation of CPython's `repr` that no
claim inspects beyond non-nullness). -/
def pyRepr (c : Char) : String :=
  if c = '\t' then "\x27\\t\x27"
  else if c = '\n' then "\x27\\n\x27"
  else if c = '\r' then "\x27\\r\x27"
  else if c.toNat < 0x20 ∨ c.toNat = 0x7f then
    "\x27\\x" ++ String.mk [hexDigitCh (c.toNat / 16), hexDigitCh (c.toNat % 16)] ++ "\x27"
  else if c = sqChar then "\"\x27\""
  else String.mk [sqChar, c, sqChar]

/-- Is `c` an ASCII decimal digit? -/
def isDig (c : Char) : Bool := '0' ≤ c && c ≤ '9'

/-- Numeric value of a digit list (most significant first). -/
def digitsVal (ds : List Char) : Nat := ds.foldl (fun a c => a * 10 + (c.toNat - 48)) 0

/-- Value of one hexadecimal digit, if any. -/
def hexDigVal (c : Char) : Option Nat :=
  if '0' ≤ c ∧ c ≤ '9' then some (c.toNat - 48)
  else if 'a' ≤ c ∧ c ≤ 'f' then some (c.toNat - 87)
  else if 'A' ≤ c ∧ c ≤ 'F' then some (c.toNat - 55)
  else none

/-- Value of a four-hex-digit escape `\uXXXX`, if all four are hex digits. -/
def hex4 (a b c d : Char) : Option Nat := do
  return (← hexDigVal a) * 4096 + (← hexDigVal b) * 256 + (← hexDigVal c) * 16 + (← hexDigVal d)

/-! ## JSON values

`JValue` is the image of `json.loads`: `None`, `bool`, `int`, `float`,
`str`, `list` and `dict` (insertion-ordered association list).  A float is
carried as its source token (see the module docstring). -/

inductive JValue where
  | null
  | bool (b : Bool)
  | int (n : Int)
  | flo (tok : String)
  | str (s : String)
  | arr (elems : List JValue)
  | obj (fields : List (String × JValue))
deriving Repr

/-! ## The serializer: `json.dumps(value, indent=indent, ensure_ascii=False)`

Mirrors CPython's encoder with `sort_keys=False` and default separators:
`(', ', ': ')` when `indent is None`, `(',', ': ')` otherwise.  A
non-string `indent` is turned into the string `indent * ' '` (so a
negative integer yields the empty indent string).  `ensure_ascii=False`
escapes only `"`' `\` and the C0 controls. -/

/-- Encoder escape for one character (`ensure_ascii=False`, the `ESCAPE`
regex and `ESCAPE_DCT` of `json/encoder.py`). -/
def escCharJson (c : Char) : List Char :=
  if c = '"' then ['\\', '"']
  else if c = '\\' then ['\\', '\\']
  else if c = '\x08' then ['\\', 'b']
  else if c = '\x0c' then ['\\', 'f']
  else if c = '\n' then ['\\', 'n']
  else if c = '\r' then ['\\', 'r']
  else if c = '\t' then ['\\', 't']
  else if c.toNat < 0x20 then
    ['\\', 'u', '0', '0', hexDigitCh (c.toNat / 16), hexDigitCh (c.toNat % 16)]
  else [c]

/-- Body (without the surrounding quotes) of an encoded JSON string. -/
def encStrBody (l : List Char) : List Char := (l.map escCharJson).flatten

/-- Encoded JSON string with quotes. -/
def encStr (s : String) : List Char := '"' :: encStrBody s.data ++ ['"']

/-- Newline plus indentation for nesting level `lvl`; empty in compact
(`indent is None`) mode.  CPython: `'\n' + indent * level` where the indent
string is `indent * ' '` (empty for a non-positive integer). -/
def encNl (ind : Option Int) (lvl : Nat) : List Char :=
  match ind with
  | none => []
  | some i => '\n' :: List.replicate (i.toNat * lvl) ' '

/-- Separator emitted between two container items: `', '` in compact mode,
`',' + newline + indent` with an indent. -/
def encItemSep (ind : Option Int) (lvl : Nat) : List Char :=
  match ind with
  | none => [',', ' ']
  | some i => ',' :: '\n' :: List.replicate (i.toNat * lvl) ' '

mutual

/-- Characters of `json.dumps(v, indent=ind, ensure_ascii=False)` at nesting
level `lvl`. -/
def encVal : JValue → Option Int → Nat → List Char
  | .null, _, _ => ['n', 'u', 'l', 'l']
  | .bool true, _, _ => ['t', 'r', 'u', 'e']
  | .bool false, _, _ => ['f', 'a', 'l', 's', 'e']
  | .int n, _, _ => intRepr n
  | .flo t, _, _ => t.data
  | .str s, _, _ => encStr s
  | .arr [], _, _ => ['[', ']']
  | .arr (x :: xs), ind, lvl =>
      '[' :: encNl ind (lvl + 1) ++ encVal x ind (lvl + 1) ++ encItems xs ind (lvl + 1)
        ++ encNl ind lvl ++ [']']
  | .obj [], _, _ => ['\x7b', '\x7d']
  | .obj (p :: ps), ind, lvl =>
      '\x7b' :: encNl ind (lvl + 1) ++ encPair p ind (lvl + 1) ++ encPairs ps ind (lvl + 1)
        ++ encNl ind lvl ++ ['\x7d']

/-- Trailing array items, each preceded by the item separator. -/
def encItems : List JValue → Option Int → Nat → List Char
  | [], _, _ => []
  | x :: xs, ind, lvl => encItemSep ind lvl ++ encVal x ind lvl ++ encItems xs ind lvl

/-- One `key: value` member (the key separator is always `': '`). -/
def encPair : String × JValue → Option Int → Nat → List Char
  | (k, v), ind, lvl => encStr k ++ [':', ' '] ++ encVal v ind lvl

/-- Trailing object members, each preceded by the item separator. -/
def encPairs : List (String × JValue) → Option Int → Nat → List Char
  | [], _, _ => []
  | p :: ps, ind, lvl => encItemSep ind lvl ++ encPair p ind lvl ++ encPairs ps ind lvl

end

/-- `json.dumps(v, indent=ind, ensure_ascii=False)`. -/
def json_dumps (v : JValue) (ind : Option Int) : String := String.mk (encVal v ind 0)

/-! ## The parser: `json.loads`

Modelled after CPython's `json` scanner/decoder (`json/scanner.py`,
`json/decoder.py` and the default C implementations, which produce the
same messages and offsets): recursive-descent over the characters with an
explicit 0-based position, returning on failure the message and offset of
a `JSONDecodeError`. -/

/-- A `json.JSONDecodeError`: bare message (`e.msg`) and 0-based offset
(`e.pos`) into the document. -/
structure JErr where
  msg : String
  pos : Nat
deriving Repr, DecidableEq

/-- Result alphabet of one scanner step: a value, the unconsumed
characters and the position just past the consumed ones. -/
abbrev ScanRes := Except JErr (JValue × List Char × Nat)

/-- JSON whitespace, the `_ws` set `' \t\n\r'` of `json/decoder.py`. -/
def isJsonWs (c : Char) : Bool := c = ' ' || c = '\t' || c = '\n' || c = '\r'

/-- Skip JSON whitespace (the `WHITESPACE` regex `[ \t\n\r]*`). -/
def skipWs : List Char → Nat → List Char × Nat
  | [], p => ([], p)
  | c :: cs, p => if isJsonWs c then skipWs cs (p + 1) else (c :: cs, p)

/-- Single-character string escapes (the `BACKSLASH` table). -/
def escDecode (e : Char) : Option Char :=
  if e = '"' then some '"'
  else if e = '\\' then some '\\'
  else if e = '/' then some '/'
  else if e = 'b' then some '\x08'
  else if e = 'f' then some '\x0c'
  else if e = 'n' then some '\n'
  else if e = 'r' then some '\r'
  else if e = 't' then some '\t'
  else none

/-- Scan the remainder of a JSON string (`scanstring`, strict mode).
`cs`/`pos` start just after the opening quote, `bg` is the offset of the
opening quote (used by the `"Unterminated string starting at"` message),
`acc` holds already-decoded characters in reverse.  A lone surrogate from
a `\uXXXX` escape — representable in a Python `str` but not in a Lean
`String` — is mapped to U+FFFD; this is the one representational
deviation from CPython.  The fuel is structural; `cs.length + 1` is
always enough since every step consumes at least one character. -/
def scanStr : Nat → List Char → Nat → Nat → List Char → Except JErr (String × List Char × Nat)
  | 0, _, _, bg, _ => .error ⟨"Unterminated string starting at", bg⟩
  | _ + 1, [], _, bg, _ => .error ⟨"Unterminated string starting at", bg⟩
  | fuel + 1, c :: rest, pos, bg, acc =>
    if c = '"' then .ok (String.mk acc.reverse, rest, pos + 1)
    else if c = '\\' then
      match rest with
      | [] => .error ⟨"Unterminated string starting at", bg⟩
      | 'u' :: a :: b :: cc :: d :: rest2 =>
        match hex4 a b cc d with
        | none => .error ⟨"Invalid \\uXXXX escape", pos + 2⟩
        | some u =>
          if 0xd800 ≤ u ∧ u ≤ 0xdbff then
            match rest2 with
            | '\\' :: 'u' :: e :: f :: g :: h :: rest3 =>
              match hex4 e f g h with
              | some u2 =>
                if 0xdc00 ≤ u2 ∧ u2 ≤ 0xdfff then
                  scanStr fuel rest3 (pos + 12) bg
                    (Char.ofNat (0x10000 + (u - 0xd800) * 0x400 + (u2 - 0xdc00)) :: acc)
                else scanStr fuel rest2 (pos + 6) bg ('�' :: acc)
              | none => scanStr fuel rest2 (pos + 6) bg ('�' :: acc)
            | _ => scanStr fuel rest2 (pos + 6) bg ('�' :: acc)
          else if 0xdc00 ≤ u ∧ u ≤ 0xdfff then scanStr fuel rest2 (pos + 6) bg ('�' :: acc)
          else scanStr fuel rest2 (pos + 6) bg (Char.ofNat u :: acc)
      | 'u' :: _ => .error ⟨"Invalid \\uXXXX escape", pos + 2⟩
      | e :: rest2 =>
        match escDecode e with
        | some d => scanStr fuel rest2 (pos + 2) bg (d :: acc)
        | none => .error ⟨"Invalid \\escape: " ++ pyRepr e, pos + 1⟩
    else if c.toNat < 0x20 then
      .error ⟨"Invalid control character " ++ pyRepr c ++ " at", pos⟩
    else scanStr fuel rest (pos + 1) bg (c :: acc)

/-- Digit run of an exponent, after the optional sign: `cs` is the whole
token-so-far context (returned unchanged when there is no digit), `sg` the
sign characters and `r2` the input after the sign. -/
def parseExpDigits (e : Char) (cs sg r2 : List Char) : List Char × List Char :=
  match r2.takeWhile isDig with
  | [] => ([], cs)
  | ds => (e :: sg ++ ds, r2.dropWhile isDig)

/-- Optional exponent sign after the `e`/`E`. -/
def parseExpSign (e : Char) (cs r : List Char) : List Char × List Char :=
  match r with
  | c :: t =>
    if c = '+' then parseExpDigits e cs ['+'] t
    else if c = '-' then parseExpDigits e cs ['-'] t
    else parseExpDigits e cs [] r
  | [] => parseExpDigits e cs [] r

/-- Exponent part of a number token (`[eE][-+]?\d+`, or nothing). Returns
the matched characters and the remaining input. -/
def parseExpPart (cs : List Char) : List Char × List Char :=
  match cs with
  | e :: r => if e = 'e' ∨ e = 'E' then parseExpSign e cs r else ([], cs)
  | [] => ([], cs)

/-- Fraction part of a number token (`(\.\d+)?`, or nothing). -/
def parseFrac (cs : List Char) : List Char × List Char :=
  match cs with
  | c :: r =>
    if c = '.' then
      match r.takeWhile isDig with
      | [] => ([], cs)
      | ds => ('.' :: ds, r.dropWhile isDig)
    else ([], cs)
  | [] => ([], cs)

/-- Fraction and exponent parts after the integer part of a number
(`(\.\d+)?([eE][-+]?\d+)?`).  An integer-only match yields a Python `int`;
otherwise the token becomes a float (`JValue.flo`). -/
def numAfterInt (sgn ip cs : List Char) (pos : Nat) : ScanRes :=
  let (fp, cs2) := parseFrac cs
  let (ep, cs3) := parseExpPart cs2
  if fp = [] ∧ ep = [] then
    let v : Int := if sgn = [] then (digitsVal ip : Int) else -(digitsVal ip : Int)
    .ok (.int v, cs2, pos + (sgn.length + ip.length))
  else .ok (.flo (String.mk (sgn ++ ip ++ fp ++ ep)), cs3,
    pos + (sgn.length + ip.length + fp.length + ep.length))

/-- Integer part and onwards of a number (`0|[1-9]\d*` then fraction and
exponent); `sgn` is the already-consumed sign, `cs1` the input after it,
`pos` the offset of the whole token. -/
def parseNumBody (sgn cs1 : List Char) (pos : Nat) : ScanRes :=
  match cs1 with
  | c :: r =>
    if c = '0' then numAfterInt sgn ['0'] r pos
    else if isDig c then
      numAfterInt sgn (c :: r.takeWhile isDig) (r.dropWhile isDig) pos
    else .error ⟨"Expecting value", pos⟩
  | [] => .error ⟨"Expecting value", pos⟩

/-- Number scan, the `NUMBER_RE` regex `(-?(?:0|[1-9]\d*))(\.\d+)?([eE][-+]?\d+)?`
followed by `int`/`float` conversion.  No match falls through to
`"Expecting value"` at the start offset (`StopIteration` in CPython). -/
def parseNumber (cs : List Char) (pos : Nat) : ScanRes :=
  match cs with
  | c :: r => if c = '-' then parseNumBody ['-'] r pos else parseNumBody [] cs pos
  | [] => .error ⟨"Expecting value", pos⟩

/-- Python `dict` assignment `pairs[key] = value` on an insertion-ordered
association list: replace in place when the key exists, append otherwise. -/
def dictInsert (ps : List (String × JValue)) (k : String) (v : JValue) :
    List (String × JValue) :=
  if ps.any (fun p => p.1 == k) then ps.map (fun p => if p.1 == k then (p.1, v) else p)
  else ps ++ [(k, v)]

/-- Member loop of `JSONObject`: `cs`/`pos` start just after the opening
quote of the next key; `acc` holds the members read so far.  One fuel unit
per member; a fuel of `cs.length + 1` is always sufficient. -/
def membersLoop (pv : List Char → Nat → ScanRes) : Nat → List Char → Nat →
    List (String × JValue) → ScanRes
  | 0, _, pos, _ => .error ⟨"Expecting value", pos⟩
  | fuel + 1, cs, pos, acc =>
    match scanStr (cs.length + 1) cs pos (pos - 1) [] with
    | .error e => .error e
    | .ok (k, cs2, p2) =>
      let (cs3, p3) := skipWs cs2 p2
      match cs3 with
      | ':' :: cs4 =>
        let (cs5, p5) := skipWs cs4 (p3 + 1)
        match pv cs5 p5 with
        | .error e => .error e
        | .ok (v, cs6, p6) =>
          let acc2 := dictInsert acc k v
          let (cs7, p7) := skipWs cs6 p6
          match cs7 with
          | '\x7d' :: cs8 => .ok (.obj acc2, cs8, p7 + 1)
          | ',' :: cs8 =>
            let (cs9, p9) := skipWs cs8 (p7 + 1)
            match cs9 with
            | '"' :: cs10 => membersLoop pv fuel cs10 (p9 + 1) acc2
            | _ => .error ⟨"Expecting property name enclosed in double quotes", p9⟩
          | _ => .error ⟨"Expecting ',' delimiter", p7⟩
      | _ => .error ⟨"Expecting ':' delimiter", p3⟩

/-- Element loop of `JSONArray`: `cs`/`pos` start at the first character of
the next element.  One fuel unit per element. -/
def elemsLoop (pv : List Char → Nat → ScanRes) : Nat → List Char → Nat →
    List JValue → ScanRes
  | 0, _, pos, _ => .error ⟨"Expecting value", pos⟩
  | fuel + 1, cs, pos, acc =>
    match pv cs pos with
    | .error e => .error e
    | .ok (v, cs2, p2) =>
      let acc2 := acc ++ [v]
      let (cs3, p3) := skipWs cs2 p2
      match cs3 with
      | ']' :: cs4 => .ok (.arr acc2, cs4, p3 + 1)
      | ',' :: cs4 =>
        let (cs5, p5) := skipWs cs4 (p3 + 1)
        elemsLoop pv fuel cs5 p5 acc2
      | _ => .error ⟨"Expecting ',' delimiter", p3⟩

/-- Body of `scan_once`, parameterised by the scanner used for nested
values (`ih`, one nesting level less fuel).  Dispatch order follows
`py_scan_once`; the string constants `null`/`true`/`false` and
`NaN`/`Infinity`/`-Infinity` are prefix tests, numbers go through
`NUMBER_RE`, anything else is `"Expecting value"`. -/
def scanBody (ih : List Char → Nat → ScanRes) (cs : List Char) (pos : Nat) : ScanRes :=
  match cs with
  | [] => .error ⟨"Expecting value", pos⟩
  | c :: rest =>
    if c = '"' then
      match scanStr (rest.length + 1) rest (pos + 1) pos [] with
      | .error e => .error e
      | .ok (s, cs2, p2) => .ok (.str s, cs2, p2)
    else if c = '\x7b' then
      let (cs1, p1) := skipWs rest (pos + 1)
      match cs1 with
      | '\x7d' :: r2 => .ok (.obj [], r2, p1 + 1)
      | '"' :: r2 => membersLoop ih (r2.length + 1) r2 (p1 + 1) []
      | _ => .error ⟨"Expecting property name enclosed in double quotes", p1⟩
    else if c = '[' then
      let (cs1, p1) := skipWs rest (pos + 1)
      match cs1 with
      | ']' :: r2 => .ok (.arr [], r2, p1 + 1)
      | _ => elemsLoop ih (cs1.length + 1) cs1 p1 []
    else if c = 'n' then
      match rest with
      | 'u' :: 'l' :: 'l' :: r2 => .ok (.null, r2, pos + 4)
      | _ => parseNumber cs pos
    else if c = 't' then
      match rest with
      | 'r' :: 'u' :: 'e' :: r2 => .ok (.bool true, r2, pos + 4)
      | _ => parseNumber cs pos
    else if c = 'f' then
      match rest with
      | 'a' :: 'l' :: 's' :: 'e' :: r2 => .ok (.bool false, r2, pos + 5)
      | _ => parseNumber cs pos
    else if c = 'N' then
      match rest with
      | 'a' :: 'N' :: r2 => .ok (.flo "NaN", r2, pos + 3)
      | _ => parseNumber cs pos
    else if c = 'I' then
      match rest with
      | 'n' :: 'f' :: 'i' :: 'n' :: 'i' :: 't' :: 'y' :: r2 => .ok (.flo "Infinity", r2, pos + 8)
      | _ => parseNumber cs pos
    else if c = '-' then
      match rest with
      | 'I' :: 'n' :: 'f' :: 'i' :: 'n' :: 'i' :: 't' :: 'y' :: r2 =>
          .ok (.flo "-Infinity", r2, pos + 9)
      | _ => parseNumber cs pos
    else parseNumber cs pos

/-- `scan_once`: scan one JSON value starting exactly at `pos` (no leading
whitespace skip, as in CPython).  The fuel bounds the nesting depth; the
document length plus one is always sufficient since every nesting level
consumes an opening character. -/
def scan_once : Nat → List Char → Nat → ScanRes
  | 0, _, pos => .error ⟨"Expecting value", pos⟩
  | fuel + 1, cs, pos => scanBody (scan_once fuel) cs pos

/-- `json.loads` on a string: skip leading whitespace, scan one value,
skip trailing whitespace and require the end of the document
(`"Extra data"` otherwise). -/
def json_loads_err (s : String) : Except JErr JValue :=
  let cs := s.data
  let (cs1, p1) := skipWs cs 0
  match scan_once (cs.length + 1) cs1 p1 with
  | .error e => .error e
  | .ok (v, cs2, p2) =>
    let (cs3, p3) := skipWs cs2 p2
    match cs3 with
    | [] => .ok v
    | _ => .error ⟨"Extra data", p3⟩

/-! ## JSONDecodeError line/column diagnostics

`JSONDecodeError.__init__`: `lineno = doc.count('\n', 0, pos) + 1` and
`colno = pos - doc.rfind('\n', 0, pos)` (with `rfind` returning `-1` when
there is no newline before `pos`, so the column of the first line is
`pos + 1`).  Both are therefore 1-based. -/

/-- Index of the last `'\n'` strictly before `pos` (Python
`doc.rfind('\n', 0, pos)`), if any. -/
def lastNl (cs : List Char) (pos : Nat) : Option Nat :=
  ((List.range pos).filter (fun i => cs[i]? = some '\n')).getLast?

/-- The 1-based line number of offset `pos` in `doc`. -/
def pyLineno (doc : String) (pos : Nat) : Nat := (doc.data.take pos).count '\n' + 1

/-- The 1-based column number of offset `pos` in `doc`. -/
def pyColno (doc : String) (pos : Nat) : Nat :=
  match lastNl doc.data pos with
  | none => pos + 1
  | some i => pos - i

/-! ## The `/api/format` handler of the JSON formatter service -/

/-- Python `str.replace(old, new)` for one-character arguments. -/
def pyReplaceChar (s : String) (a b : Char) : String :=
  String.mk (s.data.map (fun c => if c = a then b else c))

/-- The request model `JSONInput` (pydantic): raw text plus an optional
indent defaulting to 4. -/
structure JSONInput where
  text : String
  indent : Option Int := some 4
deriving Repr, DecidableEq

/-- The response model `JSONResponse` (pydantic). -/
structure JSONResponse where
  success : Bool
  formatted : Option String := none
  error : Option String := none
  error_line : Option Nat := none
  error_column : Option Nat := none
deriving Repr, DecidableEq

/-- The `/api/format` handler `format_json` of `json_formatter/app/main.py`:
replace every single quote by a double quote, parse, and either
re-serialize with the requested indent or report the `JSONDecodeError`
diagnostics.  In the embedding `json.dumps` is total on parser output, so
the `except Exception` fallback branch (`Failure` with only a message) is
unreachable and has no counterpart here. -/
def format_json (data : JSONInput) : JSONResponse :=
  let text := pyReplaceChar data.text sqChar '"'
  match json_loads_err text with
  | .ok parsed =>
    { success := true, formatted := some (json_dumps parsed data.indent) }
  | .error e =>
    { success := false
      error := "JSON Error: " ++ e.msg
      error_line := some (pyLineno text e.pos)
      error_column := some (pyColno text e.pos) }

/-! ## The markdown converter service

`markdown_to_html_pdf/app/main.py`.  The conversion engines are opaque
collaborators: `markdown2.markdown` with the fixed extras list, the static
`HTML_TEMPLATE` text with its three interpolation slots, `weasyprint`'s
`write_pdf`, and `datetime.now()` are bundled into a `RenderEnv`
parameter; no claim below inspects their output beyond passing it along. -/

/-- External collaborators of the Renderer, as black boxes:
`md2html` is `markdown2.markdown(·, extras=[...])`, `wrap` is
`HTML_TEMPLATE.format(title=·, content=·, timestamp=·)`, `html2pdf` is
`HTML(string=·).write_pdf()`, and `now` is the formatted timestamp
`datetime.now().strftime("%Y-%m-%d %H:%M:%S")`. -/
structure RenderEnv where
  md2html : String → String
  wrap : String → String → String → String
  html2pdf : String → List Nat
  now : String

/-- `MarkdownConverter.convert_to_html`: convert the markdown to an HTML
fragment and interpolate it into the template with the title and the
current timestamp. -/
def convert_to_html (env : RenderEnv) (md_content : String) (title : String) : String :=
  env.wrap title (env.md2html md_content) env.now

/-- Outcome of a converter endpoint: an `HTTPException` (status plus
detail) or a `StreamingResponse` (media type, `filename=` of the
`Content-Disposition` header, and body bytes). -/
inductive HTTPResult where
  | error (status : Nat) (detail : String)
  | stream (media_type : String) (filename : String) (body : List Nat)
deriving Repr, DecidableEq

/-- Python `str.isspace()` for a single character (the set stripped by
`str.strip()` with no arguments): Unicode whitespace plus the bidirectional
classes WS, B and S. -/
def pyIsSpace (c : Char) : Bool :=
  let n := c.toNat
  if 9 ≤ n ∧ n ≤ 13 then true
  else if 28 ≤ n ∧ n ≤ 32 then true
  else if n = 0x85 ∨ n = 0xa0 ∨ n = 0x1680 then true
  else if 0x2000 ≤ n ∧ n ≤ 0x200a then true
  else if n = 0x2028 ∨ n = 0x2029 ∨ n = 0x202f ∨ n = 0x205f ∨ n = 0x3000 then true
  else false

/-- Python `str.strip()` with no arguments. -/
def pyStrip (s : String) : String :=
  String.mk (((s.data.dropWhile pyIsSpace).reverse.dropWhile pyIsSpace).reverse)

/-- UTF-8 encoding of one character (`str.encode('utf-8')`). -/
def utf8EncodeChar (c : Char) : List Nat :=
  let n := c.toNat
  if n < 0x80 then [n]
  else if n < 0x800 then [0xc0 + n / 64, 0x80 + n % 64]
  else if n < 0x10000 then [0xe0 + n / 4096, 0x80 + (n / 64) % 64, 0x80 + n % 64]
  else [0xf0 + n / 0x40000, 0x80 + (n / 4096) % 64, 0x80 + (n / 64) % 64, 0x80 + n % 64]

/-- UTF-8 encoding of a string (`str.encode('utf-8')`), as a byte list. -/
def utf8Encode (s : String) : List Nat := (s.data.map utf8EncodeChar).flatten

/-- Is `b` a UTF-8 continuation byte `0x80..0xbf`? -/
def utf8Cont (b : Nat) : Prop := 0x80 ≤ b ∧ b ≤ 0xbf

instance (b : Nat) : Decidable (utf8Cont b) := by unfold utf8Cont; infer_instance

/-- Strict UTF-8 decoding of a byte list (`bytes.decode('utf-8')`):
rejects truncated sequences, overlong encodings, surrogates and code
points above U+10FFFF, exactly as CPython's strict UTF-8 codec.
Returns `none` where CPython raises `UnicodeDecodeError`. -/
def utf8Decode : List Nat → Option (List Char)
  | [] => some []
  | b1 :: rest =>
    if b1 < 0x80 then (utf8Decode rest).map (fun l => Char.ofNat b1 :: l)
    else if b1 < 0xc2 then none
    else if b1 < 0xe0 then
      match rest with
      | b2 :: rest2 =>
        if utf8Cont b2 then
          (utf8Decode rest2).map (fun l => Char.ofNat ((b1 - 0xc0) * 64 + (b2 - 0x80)) :: l)
        else none
      | [] => none
    else if b1 < 0xf0 then
      match rest with
      | b2 :: b3 :: rest3 =>
        let lo2 := if b1 = 0xe0 then 0xa0 else 0x80
        let hi2 := if b1 = 0xed then 0x9f else 0xbf
        if (lo2 ≤ b2 ∧ b2 ≤ hi2) ∧ utf8Cont b3 then
          (utf8Decode rest3).map
            (fun l => Char.ofNat ((b1 - 0xe0) * 4096 + (b2 - 0x80) * 64 + (b3 - 0x80)) :: l)
        else none
      | _ => none
    else if b1 < 0xf5 then
      match rest with
      | b2 :: b3 :: b4 :: rest4 =>
        let lo2 := if b1 = 0xf0 then 0x90 else 0x80
        let hi2 := if b1 = 0xf4 then 0x8f else 0xbf
        if (lo2 ≤ b2 ∧ b2 ≤ hi2) ∧ utf8Cont b3 ∧ utf8Cont b4 then
          (utf8Decode rest4).map
            (fun l => Char.ofNat
              ((b1 - 0xf0) * 0x40000 + (b2 - 0x80) * 4096 + (b3 - 0x80) * 64 + (b4 - 0x80)) :: l)
        else none
      | _ => none
    else none

/-- Index of the last occurrence of `c` in `cs`, if any (Python `rfind`). -/
def lastIdxOf (cs : List Char) (c : Char) : Option Nat :=
  ((List.range cs.length).filter (fun i => cs[i]? = some c)).getLast?

/-- Python `str.rfind` result as an integer: the index, or `-1`. -/
def idxOrNeg (o : Option Nat) : Int :=
  match o with
  | some i => (i : Int)
  | none => -1

/-- `os.path.splitext(p)[0]` for POSIX paths: everything before the last
dot of the final path component, unless that component consists of leading
dots only (`.bashrc` keeps its dot). -/
def pySplitextRoot (p : String) : String :=
  let cs := p.data
  let sepIdx : Int := idxOrNeg (lastIdxOf cs '/')
  let dotIdx : Int := idxOrNeg (lastIdxOf cs '.')
  if sepIdx < dotIdx then
    if (List.range cs.length).any
        (fun i => decide (sepIdx < (i : Int) ∧ (i : Int) < dotIdx ∧ cs[i]? ≠ some '.')) then
      String.mk (cs.take dotIdx.toNat)
    else p
  else p

/-- The `/convert/paste` handler `convert_paste`: reject blank content
(HTTP 400), reject an output format outside `html`/`pdf` (HTTP 400), then
convert and stream.  The conversion engines are total in the embedding, so
the `except Exception` → HTTP 500 branch is unreachable here. -/
def convert_paste (env : RenderEnv) (content output_format title : String) : HTTPResult :=
  if pyStrip content = "" then .error 400 "Content cannot be empty"
  else if ¬(output_format = "html" ∨ output_format = "pdf") then
    .error 400 "output_format must be \x27html\x27 or \x27pdf\x27"
  else
    let html_content := convert_to_html env content title
    if output_format = "html" then
      .stream "text/html" (pyReplaceChar title ' ' '_' ++ ".html") (utf8Encode html_content)
    else
      .stream "application/pdf" (pyReplaceChar title ' ' '_' ++ ".pdf")
        (env.html2pdf html_content)

/-- An `UploadFile`: the (optional) client-supplied filename and the raw
bytes of the file. -/
structure UploadFileM where
  filename : Option String
  content : List Nat
deriving Repr, DecidableEq

/-- The allowed-extensions list computed (but never consulted) by
`convert_upload`; likewise `file_ext` is computed from `splitext(...)[0]`
— the root, not the extension — and never used. -/
def allowed_extensions : List String := [".md", ".markdown", ".txt"]

/-- Title derivation of `convert_upload`:
`os.path.splitext(file.filename)[0] if file.filename else "Document"`
(`None` and the empty string are both falsy). -/
def uploadTitle (fn : Option String) : String :=
  match fn with
  | none => "Document"
  | some f => if f = "" then "Document" else pySplitextRoot f

/-- The `/convert/upload` handler `convert_upload`: reject a bad output
format (HTTP 400, before the `try`), decode the bytes as UTF-8
(`UnicodeDecodeError` → HTTP 400 via its dedicated `except` clause), then
check for blank content.  The blank-content `HTTPException(400, "File is
empty")` is raised *inside* the `try` block whose `except Exception`
clause catches every `Exception` — including `HTTPException` — and
re-raises HTTP 500 with `Conversion error: {str(e)}`, where
`str(HTTPException(400, "File is empty"))` is `"400: File is empty"`.
Otherwise derive the title from the filename and convert; the filename's
extension is never checked. -/
def convert_upload (env : RenderEnv) (file : UploadFileM) (output_format : String) :
    HTTPResult :=
  if ¬(output_format = "html" ∨ output_format = "pdf") then
    .error 400 "output_format must be \x27html\x27 or \x27pdf\x27"
  else
    match utf8Decode file.content with
    | none => .error 400 "File must be a valid text file with UTF-8 encoding"
    | some chars =>
      let md_content := String.mk chars
      if pyStrip md_content = "" then .error 500 "Conversion error: 400: File is empty"
      else
        let title := uploadTitle file.filename
        let html_content := convert_to_html env md_content title
        if output_format = "html" then
          .stream "text/html" (pyReplaceChar title ' ' '_' ++ ".html")
            (utf8Encode html_content)
        else
          .stream "application/pdf" (pyReplaceChar title ' ' '_' ++ ".pdf")
            (env.html2pdf html_content)

/-! ## Supporting lemmas for the Normalizer claims -/

/-- The quote substitution never produces a single quote, so applying it
twice is the same as applying it once: the substitution is a blind global
character replacement. -/
theorem pyReplaceChar_sq_idem (s : String) :
    pyReplaceChar (pyReplaceChar s sqChar '"') sqChar '"' = pyReplaceChar s sqChar '"' := by
  simp only [pyReplaceChar, List.map_map]
  congr 1
  apply List.map_congr_left
  intro c _
  by_cases h : c = sqChar <;> simp [h, Function.comp]

/-- A string without single quotes is unchanged by the substitution. -/
theorem pyReplaceChar_sq_id (s : String) (h : sqChar ∉ s.data) :
    pyReplaceChar s sqChar '"' = s := by
  rcases s with ⟨l⟩
  unfold pyReplaceChar
  have h2 : l.map (fun c => if c = sqChar then '"' else c) = l.map id := by
    apply List.map_congr_left
    intro c hc
    simp only [id_eq, ite_eq_right_iff]
    intro heq
    exact absurd (heq ▸ hc) h
  rw [h2, List.map_id]

/-- Line numbers are 1-based. -/
theorem pyLineno_pos (doc : String) (pos : Nat) : 1 ≤ pyLineno doc pos := by
  simp [pyLineno]

/-- Column numbers are 1-based. -/
theorem pyColno_pos (doc : String) (pos : Nat) : 1 ≤ pyColno doc pos := by
  unfold pyColno
  cases h : lastNl doc.data pos with
  | none => simp
  | some i =>
    have hi := List.mem_of_mem_getLast? h
    have hlt : i < pos := List.mem_range.mp (List.mem_filter.mp hi).1
    simp only []
    omega

/-! ## Claims about the Normalizer -/

/-- Claim C1.  `format_json` first replaces every literal single quote by a
double quote — a blind global substitution, so substituting again changes
nothing — and then parses the substituted text: the handler succeeds
exactly when the substituted text parses, and on the input `{'a': 1}` it
returns Success whose `formatted` text parses back to the object
`{"a": 1}`. -/
theorem claim_C1_quote_substitution :
    (∀ s ind, format_json ⟨s, ind⟩ = format_json ⟨pyReplaceChar s sqChar '"', ind⟩)
    ∧ (∀ s ind, (format_json ⟨s, ind⟩).success = true ↔
        ∃ v, json_loads_err (pyReplaceChar s sqChar '"') = .ok v)
    ∧ format_json ⟨"\x7b\x27a\x27: 1\x7d", some 4⟩ =
        ⟨true, some "\x7b\n    \"a\": 1\n\x7d", none, none, none⟩
    ∧ json_loads_err "\x7b\n    \"a\": 1\n\x7d" = .ok (.obj [("a", .int 1)]) := by
  refine ⟨fun s ind => ?_, fun s ind => ?_, by rfl, by rfl⟩
  · unfold format_json
    rw [pyReplaceChar_sq_idem]
  · unfold format_json
    cases h : json_loads_err (pyReplaceChar s sqChar '"') with
    | ok v => simp [h]
    | error e => simp [h]

/-- Claim C3.  Whenever the quote-substituted text fails to parse — the
empty string included — `format_json` returns (it does not raise) a
Failure with the message, the 1-based line and the 1-based column all
populated; concretely, `{invalid` fails at line 1, column 2 and the empty
string at line 1, column 1. -/
theorem claim_C3_failure_diagnostics :
    (∀ s ind e, json_loads_err (pyReplaceChar s sqChar '"') = .error e →
      ∃ msg l c, format_json ⟨s, ind⟩ = ⟨false, none, some msg, some l, some c⟩
        ∧ 1 ≤ l ∧ 1 ≤ c)
    ∧ format_json ⟨"\x7binvalid", some 4⟩ =
        ⟨false, none, some "JSON Error: Expecting property name enclosed in double quotes",
          some 1, some 2⟩
    ∧ format_json ⟨"", some 4⟩ =
        ⟨false, none, some "JSON Error: Expecting value", some 1, some 1⟩ := by
  refine ⟨fun s ind e h => ?_, by rfl, by rfl⟩
  refine ⟨"JSON Error: " ++ e.msg, pyLineno (pyReplaceChar s sqChar '"') e.pos,
    pyColno (pyReplaceChar s sqChar '"') e.pos, ?_, pyLineno_pos _ _, pyColno_pos _ _⟩
  simp [format_json, h]

/-- Witness for claim C3 at the concrete failing input `{invalid`. -/
theorem claim_C3_failure_diagnostics_witness :
    ∃ msg l c, format_json ⟨"\x7binvalid", some 4⟩ = ⟨false, none, some msg, some l, some c⟩
      ∧ 1 ≤ l ∧ 1 ≤ c :=
  claim_C3_failure_diagnostics.1 "\x7binvalid" (some 4)
    ⟨"Expecting property name enclosed in double quotes", 1⟩ (by rfl)

/-- Claim C9 (response-shape invariant).  `format_json` is a total
function of the request, and its response satisfies: `formatted` is
populated exactly when `success` is true, `error` exactly when it is
false, and the line/column fields only on failure. -/
theorem claim_C9_response_shape (data : JSONInput) :
    (format_json data).formatted.isSome = (format_json data).success
    ∧ (format_json data).error.isSome = !(format_json data).success
    ∧ (format_json data).error_line.isSome = !(format_json data).success
    ∧ (format_json data).error_column.isSome = !(format_json data).success := by
  cases h : json_loads_err (pyReplaceChar data.text sqChar '"') with
  | ok v => simp [format_json, h]
  | error e => simp [format_json, h]

/-- A non-positive indent yields the same newline-plus-indent text as
indent 0, because CPython computes the indent string as `indent * ' '`. -/
theorem encNl_nonpos (n : Int) (h : n ≤ 0) (lvl : Nat) :
    encNl (some n) lvl = encNl (some 0) lvl := by
  simp [encNl, Int.toNat_of_nonpos h]

/-- Item separators likewise agree between a non-positive indent and 0. -/
theorem encItemSep_nonpos (n : Int) (h : n ≤ 0) (lvl : Nat) :
    encItemSep (some n) lvl = encItemSep (some 0) lvl := by
  simp [encItemSep, Int.toNat_of_nonpos h]

mutual

/-- Serialization with a non-positive indent equals serialization with
indent 0. -/
theorem encVal_nonpos : ∀ (v : JValue) (n : Int), n ≤ 0 → ∀ lvl : Nat,
    encVal v (some n) lvl = encVal v (some 0) lvl
  | .null, _, _, _ => rfl
  | .bool true, _, _, _ => rfl
  | .bool false, _, _, _ => rfl
  | .int _, _, _, _ => rfl
  | .flo _, _, _, _ => rfl
  | .str _, _, _, _ => rfl
  | .arr [], _, _, _ => rfl
  | .arr (x :: xs), n, h, lvl => by
      simp only [encVal]
      rw [encNl_nonpos n h, encNl_nonpos n h, encVal_nonpos x n h,
        encItems_nonpos xs n h]
  | .obj [], _, _, _ => rfl
  | .obj (p :: ps), n, h, lvl => by
      simp only [encVal]
      rw [encNl_nonpos n h, encNl_nonpos n h, encPair_nonpos p n h,
        encPairs_nonpos ps n h]

theorem encItems_nonpos : ∀ (xs : List JValue) (n : Int), n ≤ 0 → ∀ lvl : Nat,
    encItems xs (some n) lvl = encItems xs (some 0) lvl
  | [], _, _, _ => rfl
  | x :: xs, n, h, lvl => by
      simp only [encItems]
      rw [encItemSep_nonpos n h, encVal_nonpos x n h, encItems_nonpos xs n h]

theorem encPair_nonpos : ∀ (p : String × JValue) (n : Int), n ≤ 0 → ∀ lvl : Nat,
    encPair p (some n) lvl = encPair p (some 0) lvl
  | (k, v), n, h, lvl => by
      simp only [encPair]
      rw [encVal_nonpos v n h]

theorem encPairs_nonpos : ∀ (ps : List (String × JValue)) (n : Int), n ≤ 0 → ∀ lvl : Nat,
    encPairs ps (some n) lvl = encPairs ps (some 0) lvl
  | [], _, _, _ => rfl
  | p :: ps, n, h, lvl => by
      simp only [encPairs]
      rw [encItemSep_nonpos n h, encPair_nonpos p n h, encPairs_nonpos ps n h]

end

/-- Claim C5, as stated, is false: `json.dumps` accepts a negative indent
(the indent string `indent * ' '` is empty), so a valid document with
indent −2 yields Success, not a Failure with only a message. -/
theorem claim_C5_counterexample :
    format_json ⟨"\x7b\"a\": 1\x7d", some (-2)⟩ =
      ⟨true, some "\x7b\n\"a\": 1\n\x7d", none, none, none⟩ := by
  rfl

/-- Claim C5, amended.  A negative indent does not make `format_json`
fail: for valid (after quote substitution) JSON text it still returns
Success, and the serialization coincides with the indent-0 serialization
(newline-separated, no indentation), because CPython turns a negative
integer indent into the empty indent string.  The message-only Failure
branch exists for other runtime failures but is not reached here. -/
theorem claim_C5_negative_indent (s : String) (v : JValue) (n : Int)
    (hv : json_loads_err (pyReplaceChar s sqChar '"') = .ok v) (hn : n ≤ 0) :
    format_json ⟨s, some n⟩ = ⟨true, some (json_dumps v (some n)), none, none, none⟩
    ∧ json_dumps v (some n) = json_dumps v (some 0) := by
  constructor
  · simp [format_json, hv]
  · unfold json_dumps
    rw [encVal_nonpos v n hn]

/-- Witness for the amended claim C5 at the document `{"a": 1}` with
indent −2. -/
theorem claim_C5_negative_indent_witness :
    format_json ⟨"\x7b\"a\": 1\x7d", some (-2)⟩ =
      ⟨true, some (json_dumps (.obj [("a", .int 1)]) (some (-2))), none, none, none⟩
    ∧ json_dumps (.obj [("a", .int 1)]) (some (-2)) =
        json_dumps (.obj [("a", .int 1)]) (some 0) :=
  claim_C5_negative_indent "\x7b\"a\": 1\x7d" (.obj [("a", .int 1)]) (-2) (by rfl)
    (by norm_num)

/-- Lines joined by a comma and a line break. -/
def specJoin : List (List Char) → List Char
  | [] => []
  | [b] => b
  | b :: bs => b ++ ',' :: '\n' :: specJoin bs

mutual

/-- Spec-side serialization at indent width `w`, written from the
specification text as the comparison point for the source encoder `encVal`:
every member of a non-empty container sits on its own line, indented by
exactly `w` spaces per nesting level; members appear in insertion order,
separated by commas; the closing bracket returns to the enclosing level's
indentation; keys are followed by `': '`.  String rendering is shared with
the encoder, whose escaping behaviour is stated as its own conjunct. -/
def specVal (w : Nat) : JValue → Nat → List Char
  | .null, _ => ['n', 'u', 'l', 'l']
  | .bool true, _ => ['t', 'r', 'u', 'e']
  | .bool false, _ => ['f', 'a', 'l', 's', 'e']
  | .int n, _ => intRepr n
  | .flo t, _ => t.data
  | .str s, _ => encStr s
  | .arr [], _ => ['[', ']']
  | .arr (x :: xs), lvl =>
      '[' :: '\n' ::
        (specJoin ((specElems w (x :: xs) (lvl + 1)).map
            (fun b => List.replicate (w * (lvl + 1)) ' ' ++ b))
          ++ '\n' :: (List.replicate (w * lvl) ' ' ++ [']']))
  | .obj [], _ => ['\x7b', '\x7d']
  | .obj (p :: ps), lvl =>
      '\x7b' :: '\n' ::
        (specJoin ((specMembers w (p :: ps) (lvl + 1)).map
            (fun b => List.replicate (w * (lvl + 1)) ' ' ++ b))
          ++ '\n' :: (List.replicate (w * lvl) ' ' ++ ['\x7d']))

/-- Spec-side renderings of the array elements, in order. -/
def specElems (w : Nat) : List JValue → Nat → List (List Char)
  | [], _ => []
  | x :: xs, lvl => specVal w x lvl :: specElems w xs lvl

/-- Spec-side renderings of the object members, in insertion order. -/
def specMembers (w : Nat) : List (String × JValue) → Nat → List (List Char)
  | [], _ => []
  | (k, v) :: ps, lvl => (encStr k ++ ':' :: ' ' :: specVal w v lvl) :: specMembers w ps lvl

end

theorem encNl_natCast (w lvl : Nat) :
    encNl (some (w : Int)) lvl = '\n' :: List.replicate (w * lvl) ' ' := by
  simp [encNl, Int.toNat_natCast]

theorem encItemSep_natCast (w lvl : Nat) :
    encItemSep (some (w : Int)) lvl = ',' :: '\n' :: List.replicate (w * lvl) ' ' := by
  simp [encItemSep, Int.toNat_natCast]

/-- Joining the indented element renderings reproduces the encoder's
first-element-then-separators stream. -/
theorem specJoin_elems (w lvl : Nat) :
    ∀ (L : List JValue) (x : JValue),
      (∀ y ∈ x :: L, encVal y (some (w : Int)) lvl = specVal w y lvl) →
      specJoin ((specElems w (x :: L) lvl).map
          (fun b => List.replicate (w * lvl) ' ' ++ b)) =
        List.replicate (w * lvl) ' ' ++ (encVal x (some (w : Int)) lvl
          ++ encItems L (some (w : Int)) lvl) := by
  intro L
  induction L with
  | nil =>
    intro x h
    simp [specElems, specJoin, encItems, h x (List.mem_cons_self x [])]
  | cons y L ih =>
    intro x h
    have hx := h x (List.mem_cons_self x (y :: L))
    have hy := ih y (fun z hz => h z (List.mem_cons_of_mem x hz))
    simp only [specElems, List.map_cons] at hy ⊢
    simp only [specJoin, hx, encItems, encItemSep_natCast, List.cons_append,
      List.append_assoc, List.nil_append]
    rw [hy]

/-- Joining the indented member renderings reproduces the encoder's
first-member-then-separators stream. -/
theorem specJoin_members (w lvl : Nat) :
    ∀ (L : List (String × JValue)) (k : String) (v : JValue),
      (∀ q ∈ (k, v) :: L, encVal q.2 (some (w : Int)) lvl = specVal w q.2 lvl) →
      specJoin ((specMembers w ((k, v) :: L) lvl).map
          (fun b => List.replicate (w * lvl) ' ' ++ b)) =
        List.replicate (w * lvl) ' ' ++ (encPair (k, v) (some (w : Int)) lvl
          ++ encPairs L (some (w : Int)) lvl) := by
  intro L
  induction L with
  | nil =>
    intro k v h
    simp [specMembers, specJoin, encPairs, encPair,
      h (k, v) (List.mem_cons_self (k, v) [])]
  | cons q L ih =>
    intro k v h
    rcases q with ⟨k2, v2⟩
    have hx := h (k, v) (List.mem_cons_self (k, v) ((k2, v2) :: L))
    have hy := ih k2 v2 (fun z hz => h z (List.mem_cons_of_mem (k, v) hz))
    simp only [specMembers, List.map_cons] at hy ⊢
    simp only [specJoin, hx, encPairs, encPair, encItemSep_natCast, List.cons_append,
      List.append_assoc, List.nil_append, List.singleton_append]
    rw [hy]
    simp only [encPair, List.cons_append, List.append_assoc, List.singleton_append,
      List.nil_append]

set_option maxHeartbeats 800000 in
/-- The source encoder at indent `w ≥ 0` coincides with the spec-side
layout on every value: `w` spaces of indentation per nesting level and
members in insertion order. -/
theorem specVal_eq : ∀ (v : JValue) (w lvl : Nat),
    encVal v (some (w : Int)) lvl = specVal w v lvl
  | .null, _, _ => rfl
  | .bool true, _, _ => rfl
  | .bool false, _, _ => rfl
  | .int n, _, _ => rfl
  | .flo t, _, _ => rfl
  | .str s, _, _ => rfl
  | .arr [], _, _ => rfl
  | .obj [], _, _ => rfl
  | .arr (x :: xs), w, lvl => by
      have hjoin := specJoin_elems w (lvl + 1) xs x
        (fun y hy => specVal_eq y w (lvl + 1))
      show '[' :: encNl (some (w : Int)) (lvl + 1) ++ encVal x (some (w : Int)) (lvl + 1)
          ++ encItems xs (some (w : Int)) (lvl + 1) ++ encNl (some (w : Int)) lvl ++ [']']
        = specVal w (.arr (x :: xs)) lvl
      simp only [specVal, hjoin, encNl_natCast, List.cons_append, List.append_assoc,
        List.singleton_append, List.nil_append]
  | .obj (⟨k, v⟩ :: ps), w, lvl => by
      have hjoin := specJoin_members w (lvl + 1) ps k v
        (fun q hq => specVal_eq q.2 w (lvl + 1))
      show '\x7b' :: encNl (some (w : Int)) (lvl + 1) ++ encPair (k, v) (some (w : Int)) (lvl + 1)
          ++ encPairs ps (some (w : Int)) (lvl + 1) ++ encNl (some (w : Int)) lvl ++ ['\x7d']
        = specVal w (.obj ((k, v) :: ps)) lvl
      simp only [specVal, hjoin, encNl_natCast, encPair, List.cons_append, List.append_assoc,
        List.singleton_append, List.nil_append]
termination_by v _w _lvl => sizeOf v
decreasing_by
all_goals simp_wf
· have h1 := List.sizeOf_lt_of_mem hy
  simp at h1
  omega
· have h1 := List.sizeOf_lt_of_mem hq
  rcases q with ⟨a, b⟩
  simp at h1 ⊢
  omega

/-- Claim C6.  The re-serialization uses the requested indent width and
preserves key insertion order: for every parsed value and every requested
width `w` the output equals the spec-side layout `specVal`, which indents
members by exactly `w` spaces per nesting level and lists object members in
insertion order.  Every character other than `"`, `\\` and the C0 controls
is emitted unescaped (`ensure_ascii=False`), so non-ASCII characters appear
as literal UTF-8.  Concretely, with indent 2 the nested keys below sit
exactly 2 spaces deeper per level, `b` stays before `a`, and `é` is emitted
literally. -/
theorem claim_C6_serialization_conventions :
    (∀ (v : JValue) (w : Nat), json_dumps v (some (w : Int)) = String.mk (specVal w v 0))
    ∧ (∀ c : Char, 0x20 ≤ c.toNat → c ≠ '"' → c ≠ '\\' → escCharJson c = [c])
    ∧ format_json ⟨"\x7b\"b\": 1, \"a\": \x7b\"c\": \"é\"\x7d\x7d", some 2⟩ =
      ⟨true, some "\x7b\n  \"b\": 1,\n  \"a\": \x7b\n    \"c\": \"é\"\n  \x7d\n\x7d",
        none, none, none⟩ := by
  refine ⟨fun v w => congrArg String.mk (specVal_eq v w 0), fun c h1 h2 h3 => ?_, by rfl⟩
  unfold escCharJson
  have ht : c ≠ '\t' := by rintro rfl; exact absurd h1 (by decide)
  have hn : c ≠ '\n' := by rintro rfl; exact absurd h1 (by decide)
  have hr : c ≠ '\r' := by rintro rfl; exact absurd h1 (by decide)
  have hb : c ≠ '\x08' := by rintro rfl; exact absurd h1 (by decide)
  have hf : c ≠ '\x0c' := by rintro rfl; exact absurd h1 (by decide)
  simp [h2, h3, ht, hn, hr, hb, hf, Nat.not_lt.mpr h1]

/-- Witness for claim C6's universal parts: the layout refinement at
`{"a": [1]}` with width 3 and the literal emission of `é`. -/
theorem claim_C6_serialization_conventions_witness :
    json_dumps (.obj [("a", .arr [.int 1])]) (some ((3 : Nat) : Int)) =
      String.mk (specVal 3 (.obj [("a", .arr [.int 1])]) 0)
    ∧ escCharJson 'é' = ['é'] :=
  ⟨claim_C6_serialization_conventions.1 (.obj [("a", .arr [.int 1])]) 3,
    claim_C6_serialization_conventions.2.1 'é' (by decide) (by decide) (by decide)⟩

/-! ## Claims about the Renderer -/

/-- A concrete instantiation of the external collaborators, used only to
state closed witnesses. -/
def trivialRenderEnv : RenderEnv :=
  ⟨fun _ => "", fun _ _ _ => "", fun _ => [], ""⟩

/-- Claim C4 fails on the upload endpoint: pasting whitespace-only content
is rejected with HTTP 400 as claimed, but uploading a whitespace-only
file produces HTTP 500, not a 400-class error — the
`HTTPException(400, "File is empty")` is raised inside the `try` block
and swallowed by its own `except Exception` clause, which re-raises
`HTTPException(500, "Conversion error: 400: File is empty")`. -/
theorem claim_C4_empty_content (env : RenderEnv) :
    convert_upload env ⟨some "a.md", [32]⟩ "html" =
      .error 500 "Conversion error: 400: File is empty"
    ∧ convert_paste env " " "html" "Document" = .error 400 "Content cannot be empty" :=
  ⟨rfl, rfl⟩

/-- Claim C7.  An upload whose bytes are not valid UTF-8 is rejected with
HTTP 400 and a dedicated message (for either valid output format), and
that response differs from the one an empty upload receives. -/
theorem claim_C7_non_utf8_upload (env : RenderEnv) (file : UploadFileM) (fmt : String)
    (hfmt : fmt = "html" ∨ fmt = "pdf") (hdec : utf8Decode file.content = none) :
    convert_upload env file fmt =
      .error 400 "File must be a valid text file with UTF-8 encoding"
    ∧ convert_upload env file fmt ≠ convert_upload env ⟨some "a.md", []⟩ fmt := by
  have h1 : convert_upload env file fmt =
      .error 400 "File must be a valid text file with UTF-8 encoding" := by
    rcases hfmt with rfl | rfl <;> simp [convert_upload, hdec]
  have h2 : convert_upload env ⟨some "a.md", []⟩ fmt =
      .error 500 "Conversion error: 400: File is empty" := by
    rcases hfmt with rfl | rfl <;> rfl
  rw [h1, h2]
  exact ⟨rfl, by decide⟩

/-- Witness for claim C7 at the single byte `0xff` with format `html`. -/
theorem claim_C7_non_utf8_upload_witness :
    convert_upload trivialRenderEnv ⟨some "a.md", [0xff]⟩ "html" =
      .error 400 "File must be a valid text file with UTF-8 encoding"
    ∧ convert_upload trivialRenderEnv ⟨some "a.md", [0xff]⟩ "html" ≠
        convert_upload trivialRenderEnv ⟨some "a.md", []⟩ "html" :=
  claim_C7_non_utf8_upload trivialRenderEnv ⟨some "a.md", [0xff]⟩ "html" (Or.inl rfl) (by rfl)

/-- Claim C8.  An output format outside `html`/`pdf` is rejected with a
400-class error by both endpoints, before any conversion is attempted:
the outcome is fully determined by the validation checks (on the paste
endpoint the blank-content check runs first) and does not involve the
conversion engines. -/
theorem claim_C8_invalid_format (env : RenderEnv) (content title fmt : String)
    (h1 : fmt ≠ "html") (h2 : fmt ≠ "pdf") :
    convert_paste env content fmt title =
      (if pyStrip content = "" then .error 400 "Content cannot be empty"
       else .error 400 "output_format must be \x27html\x27 or \x27pdf\x27")
    ∧ ∀ file : UploadFileM,
        convert_upload env file fmt =
          .error 400 "output_format must be \x27html\x27 or \x27pdf\x27" := by
  constructor
  · by_cases hc : pyStrip content = "" <;> simp [convert_paste, hc, h1, h2]
  · intro file
    simp [convert_upload, h1, h2]

/-- Witness for claim C8 at the format `xml`. -/
theorem claim_C8_invalid_format_witness :
    convert_paste trivialRenderEnv "# hi" "xml" "T" =
      (if pyStrip "# hi" = "" then .error 400 "Content cannot be empty"
       else .error 400 "output_format must be \x27html\x27 or \x27pdf\x27")
    ∧ ∀ file : UploadFileM,
        convert_upload trivialRenderEnv file "xml" =
          .error 400 "output_format must be \x27html\x27 or \x27pdf\x27" :=
  claim_C8_invalid_format trivialRenderEnv "# hi" "T" "xml" (by decide) (by decide)

/-- Claim C10.  The upload endpoint never checks the filename against the
computed `allowed_extensions` list: any filename whatsoever (the
extension only feeds the derived title) with valid non-empty UTF-8
content and a valid output format is converted and streamed. -/
theorem claim_C10_extension_not_checked (env : RenderEnv) (file : UploadFileM)
    (fmt : String) (chars : List Char)
    (hdec : utf8Decode file.content = some chars)
    (hne : pyStrip (String.mk chars) ≠ "")
    (hfmt : fmt = "html" ∨ fmt = "pdf") :
    ∃ fn body, convert_upload env file fmt =
      .stream (if fmt = "html" then "text/html" else "application/pdf") fn body := by
  rcases hfmt with rfl | rfl
  · exact ⟨pyReplaceChar (uploadTitle file.filename) ' ' '_' ++ ".html",
      utf8Encode (convert_to_html env (String.mk chars) (uploadTitle file.filename)),
      by simp [convert_upload, hdec, hne]⟩
  · exact ⟨pyReplaceChar (uploadTitle file.filename) ' ' '_' ++ ".pdf",
      env.html2pdf (convert_to_html env (String.mk chars) (uploadTitle file.filename)),
      by simp [convert_upload, hdec, hne]⟩

/-- Witness for claim C10: a `.xyz` file (not an allowed markdown
extension) containing `# hi` converts to an HTML stream. -/
theorem claim_C10_extension_not_checked_witness :
    ∃ fn body, convert_upload trivialRenderEnv ⟨some "notes.xyz", [35, 32, 104, 105]⟩ "html" =
      .stream (if "html" = "html" then "text/html" else "application/pdf") fn body :=
  claim_C10_extension_not_checked trivialRenderEnv ⟨some "notes.xyz", [35, 32, 104, 105]⟩
    "html" ['#', ' ', 'h', 'i'] (by rfl) (by decide) (Or.inl rfl)

/-! ## Round-trip infrastructure

The goal of the remaining development is claim C2: parsing the output of
`json_dumps` recovers the value, hence `format_json` round-trips on valid
quote-free input.  The lemmas follow the stream shape of the encoder: a
value, then a separator or a closing bracket, with all inter-token
whitespace consisting of newlines and spaces. -/

/-- All characters of `w` are newlines or spaces (true of every
whitespace run the encoder emits). -/
def WsNl (w : List Char) : Prop := ∀ c ∈ w, c = '\n' ∨ c = ' '

/-- `cs` does not start with JSON whitespace. -/
def NotWsStart (cs : List Char) : Prop := ∀ c, cs.head? = some c → isJsonWs c = false

/-- `cs` is empty or starts with a character that can follow a serialized
value: a separator comma, a closing bracket, or encoder whitespace. -/
def DelimStop (cs : List Char) : Prop :=
  ∀ c, cs.head? = some c → c = ',' ∨ c = ']' ∨ c = '\x7d' ∨ c = '\n' ∨ c = ' '

theorem skipWs_append (w : List Char) (hw : WsNl w) (cs : List Char) (p : Nat) :
    skipWs (w ++ cs) p = skipWs cs (p + w.length) := by
  induction w generalizing p with
  | nil => simp
  | cons c w ih =>
    have hc : isJsonWs c = true := by
      rcases hw c (List.mem_cons_self c w) with rfl | rfl <;> rfl
    have hw' : WsNl w := fun d hd => hw d (List.mem_cons_of_mem c hd)
    simp only [List.cons_append, skipWs, hc, if_true, List.append_eq]
    rw [ih hw']
    congr 1
    simp only [List.length_cons]
    omega

theorem skipWs_eq_self (cs : List Char) (h : NotWsStart cs) (p : Nat) :
    skipWs cs p = (cs, p) := by
  cases cs with
  | nil => rfl
  | cons c cs' => simp [skipWs, h c rfl]

/-- A `DelimStop` suffix in particular does not start with a digit, dot
or exponent letter, so it terminates a number token. -/
theorem DelimStop.not_dig {cs : List Char} (h : DelimStop cs) :
    ∀ c, cs.head? = some c → isDig c = false ∧ c ≠ '.' ∧ c ≠ 'e' ∧ c ≠ 'E' := by
  intro c hc
  rcases h c hc with rfl | rfl | rfl | rfl | rfl <;> exact ⟨rfl, by decide, by decide, by decide⟩

theorem digitCh_toNat : ∀ d : Nat, d < 10 → (digitCh d).toNat = 48 + d := by decide

theorem isDig_digitCh : ∀ d : Nat, d < 10 → isDig (digitCh d) = true := by decide

theorem digitCh_ne_zero : ∀ d : Nat, d < 10 → d ≠ 0 → digitCh d ≠ '0' := by decide

theorem digitsVal_append_singleton (ds : List Char) (d : Char) :
    digitsVal (ds ++ [d]) = 10 * digitsVal ds + (d.toNat - 48) := by
  simp [digitsVal, List.foldl_append]
  omega

/-- Specification of the digit printer: it prepends to `acc` a non-empty
all-digit run whose value is `n`, equal to `['0']` exactly for zero and
never starting with `'0'` otherwise. -/
theorem natDigitsAux_spec : ∀ (fuel n : Nat) (acc : List Char), n ≤ fuel →
    ∃ ds, natDigitsAux fuel n acc = ds ++ acc ∧ ds ≠ []
      ∧ (∀ c ∈ ds, isDig c = true) ∧ digitsVal ds = n
      ∧ (n = 0 → ds = ['0']) ∧ (1 ≤ n → ds.head? ≠ some '0') := by
  intro fuel
  induction fuel with
  | zero =>
    intro n acc hn
    have : n = 0 := Nat.le_zero.mp hn
    subst this
    exact ⟨['0'], rfl, by simp, by decide, by decide, fun _ => rfl, by intro h; omega⟩
  | succ fuel ih =>
    intro n acc hn
    by_cases h10 : n < 10
    · refine ⟨[digitCh n], by simp [natDigitsAux, h10], by simp, ?_, ?_, ?_, ?_⟩
      · intro c hc
        rcases List.mem_singleton.mp hc with rfl
        exact isDig_digitCh n h10
      · simp [digitsVal, digitCh_toNat n h10]
      · intro h0; subst h0; rfl
      · intro h1 hhead
        exact digitCh_ne_zero n h10 (by omega) (by simpa using hhead)
    · have hdiv : n / 10 ≤ fuel := by
        have : n / 10 < n := Nat.div_lt_self (by omega) (by omega)
        omega
      obtain ⟨ds, heq, hne, hdig, hval, _, hhd⟩ := ih (n / 10) (digitCh (n % 10) :: acc) hdiv
      refine ⟨ds ++ [digitCh (n % 10)], ?_, by simp, ?_, ?_, by omega, ?_⟩
      · simp [natDigitsAux, h10, heq]
      · intro c hc
        rcases List.mem_append.mp hc with hc | hc
        · exact hdig c hc
        · rcases List.mem_singleton.mp hc with rfl
          exact isDig_digitCh _ (Nat.mod_lt n (by omega))
      · rw [digitsVal_append_singleton, hval, digitCh_toNat _ (Nat.mod_lt n (by omega))]
        omega
      · intro _
        have h1 : 1 ≤ n / 10 := Nat.one_le_div_iff (by omega) |>.mpr (Nat.not_lt.mp h10)
        cases ds with
        | nil => exact absurd rfl hne
        | cons d dtl =>
          simpa using hhd h1

/-- The digit printer for a natural number. -/
theorem natDigits_spec (n : Nat) :
    ∃ ds, natDigits n = ds ∧ ds ≠ [] ∧ (∀ c ∈ ds, isDig c = true) ∧ digitsVal ds = n
      ∧ (n = 0 → ds = ['0']) ∧ (1 ≤ n → ds.head? ≠ some '0') := by
  obtain ⟨ds, heq, h⟩ := natDigitsAux_spec n n [] (le_refl n)
  exact ⟨ds, by simpa [natDigits] using heq, h⟩

theorem takeWhile_digits_append (ds rest : List Char)
    (h1 : ∀ c ∈ ds, isDig c = true)
    (h2 : ∀ c, rest.head? = some c → isDig c = false) :
    (ds ++ rest).takeWhile isDig = ds ∧ (ds ++ rest).dropWhile isDig = rest := by
  induction ds with
  | nil =>
    cases rest with
    | nil => simp
    | cons c r => simp [List.takeWhile, List.dropWhile, h2 c rfl]
  | cons c ds ih =>
    have hc := h1 c (List.mem_cons_self c ds)
    have := ih (fun d hd => h1 d (List.mem_cons_of_mem c hd))
    simp [List.takeWhile, List.dropWhile, hc, this.1, this.2]

theorem encStrBody_cons (c : Char) (l : List Char) :
    encStrBody (c :: l) = escCharJson c ++ encStrBody l := by
  simp [encStrBody]

theorem escCharJson_length_pos (c : Char) : 1 ≤ (escCharJson c).length := by
  unfold escCharJson
  split_ifs <;> simp

theorem hexDigVal_hexDigitCh : ∀ d : Nat, d < 16 → hexDigVal (hexDigitCh d) = some d := by
  decide

/-- One scanner step per source character: the scanner consumes the whole
escape (or literal) emitted for `c`, pushes `c` on the accumulator and
spends exactly one unit of fuel. -/
theorem scanStr_step (c : Char) (f : Nat) (T : List Char) (pos bg : Nat) (acc : List Char) :
    scanStr (f + 1) (escCharJson c ++ T) pos bg acc =
      scanStr f T (pos + (escCharJson c).length) bg (c :: acc) := by
  by_cases h1 : c = '"'
  · subst h1; rfl
  by_cases h2 : c = '\\'
  · subst h2; rfl
  by_cases h3 : c = '\x08'
  · subst h3; rfl
  by_cases h4 : c = '\x0c'
  · subst h4; rfl
  by_cases h5 : c = '\n'
  · subst h5; rfl
  by_cases h6 : c = '\r'
  · subst h6; rfl
  by_cases h7 : c = '\t'
  · subst h7; rfl
  by_cases h8 : c.toNat < 0x20
  · have hesc : escCharJson c =
        ['\\', 'u', '0', '0', hexDigitCh (c.toNat / 16), hexDigitCh (c.toNat % 16)] := by
      simp [escCharJson, h1, h2, h3, h4, h5, h6, h7, h8]
    have hu : hex4 '0' '0' (hexDigitCh (c.toNat / 16)) (hexDigitCh (c.toNat % 16)) =
        some c.toNat := by
      have hdiv : c.toNat / 16 < 16 := by omega
      have hmod : c.toNat % 16 < 16 := Nat.mod_lt _ (by omega)
      have h0 : hexDigVal '0' = some 0 := rfl
      simp only [hex4, bind, Option.bind, h0, hexDigVal_hexDigitCh _ hdiv,
        hexDigVal_hexDigitCh _ hmod]
      have hdm := Nat.div_add_mod c.toNat 16
      simp only [Option.pure_def, Option.some.injEq]
      omega
    have hns1 : ¬(0xd800 ≤ c.toNat ∧ c.toNat ≤ 0xdbff) := by omega
    have hns2 : ¬(0xdc00 ≤ c.toNat ∧ c.toNat ≤ 0xdfff) := by omega
    rw [hesc]
    simp only [List.cons_append, List.nil_append, List.append_eq, scanStr]
    simp only [hu, hns1, hns2, if_false, reduceIte, Char.ofNat_toNat]
    simp [hesc]
  · have hesc : escCharJson c = [c] := by
      simp [escCharJson, h1, h2, h3, h4, h5, h6, h7, h8]
    rw [hesc]
    simp only [List.cons_append, List.nil_append, List.append_eq, scanStr]
    rw [if_neg h1, if_neg h2, if_neg (by simpa using h8)]
    simp [hesc]

/-- The string scanner inverts the string encoder: it consumes the encoded
body and the closing quote, leaving any suffix untouched. -/
theorem scanStr_rt : ∀ (l : List Char) (fuel : Nat) (rest acc : List Char) (pos bg : Nat),
    (encStrBody l).length + 1 ≤ fuel →
    scanStr fuel (encStrBody l ++ '"' :: rest) pos bg acc =
      .ok (String.mk (acc.reverse ++ l), rest, pos + (encStrBody l).length + 1) := by
  intro l
  induction l with
  | nil =>
    intro fuel rest acc pos bg hf
    match fuel, hf with
    | fuel + 1, _ =>
      simp [encStrBody, scanStr]
  | cons c l ih =>
    intro fuel rest acc pos bg hf
    rw [encStrBody_cons] at hf ⊢
    match fuel, Nat.lt_of_lt_of_le (by
        have := escCharJson_length_pos c
        simp only [List.length_append]
        omega : 0 < (escCharJson c ++ encStrBody l).length + 1) hf with
    | fuel + 1, _ =>
      rw [List.append_assoc, scanStr_step]
      rw [ih fuel rest (c :: acc) (pos + (escCharJson c).length) bg
        (by have hp := escCharJson_length_pos c
            simp only [List.length_append] at hf; omega)]
      simp only [List.reverse_cons, List.append_assoc, List.singleton_append,
        List.length_append, Except.ok.injEq, Prod.mk.injEq]
      exact ⟨trivial, trivial, by omega⟩

/-! ## Number tokens

The shape of the tokens matched by `NUMBER_RE` (plus the three float
constants), used both to characterise the parser's float output and to
prove that such tokens re-parse to themselves. -/

/-- Integer part `0|[1-9]\d*` (the leading digit given by its code
point, `49..57` being `'1'..'9'`). -/
def IsIntPart (ip : List Char) : Prop :=
  ip = ['0'] ∨ ∃ d ds, ip = d :: ds ∧ (49 ≤ d.toNat ∧ d.toNat ≤ 57) ∧ ∀ c ∈ ds, isDig c = true

/-- Fraction part `(\.\d+)?`. -/
def IsFracPart (fp : List Char) : Prop :=
  fp = [] ∨ ∃ ds, fp = '.' :: ds ∧ ds ≠ [] ∧ ∀ c ∈ ds, isDig c = true

/-- Exponent part `([eE][-+]?\d+)?`. -/
def IsExpPart (ep : List Char) : Prop :=
  ep = [] ∨ ∃ e sg ds, ep = e :: sg ++ ds ∧ (e = 'e' ∨ e = 'E')
    ∧ (sg = [] ∨ sg = ['+'] ∨ sg = ['-']) ∧ ds ≠ [] ∧ (∀ c ∈ ds, isDig c = true)

/-- A float token: one of the three constants, or a `NUMBER_RE` match with
a fraction or exponent present. -/
def NumTok (cs : List Char) : Prop :=
  cs = ['N', 'a', 'N'] ∨ cs = ['I', 'n', 'f', 'i', 'n', 'i', 't', 'y']
  ∨ cs = ['-', 'I', 'n', 'f', 'i', 'n', 'i', 't', 'y']
  ∨ ∃ sgn ip fp ep, cs = sgn ++ ip ++ fp ++ ep ∧ (sgn = [] ∨ sgn = ['-'])
      ∧ IsIntPart ip ∧ IsFracPart fp ∧ IsExpPart ep ∧ (fp ≠ [] ∨ ep ≠ [])

/-- `cs` cannot extend a number token: it is empty or starts with
something that is neither a digit, a dot, nor an exponent letter. -/
def NumStopHead (cs : List Char) : Prop :=
  ∀ c, cs.head? = some c → isDig c = false ∧ c ≠ '.' ∧ c ≠ 'e' ∧ c ≠ 'E'

theorem numStopHead_of_delimStop {cs : List Char} (h : DelimStop cs) : NumStopHead cs :=
  h.not_dig

/-- The head of an exponent-then-stop suffix is not a digit and not a
dot. -/
theorem expPart_head {ep rest : List Char} (hep : IsExpPart ep) (hrest : NumStopHead rest) :
    ∀ c, (ep ++ rest).head? = some c → isDig c = false ∧ c ≠ '.' := by
  intro c hc
  rcases hep with rfl | ⟨e, sg, ds, rfl, he, _, _, _⟩
  · exact ⟨(hrest c hc).1, (hrest c hc).2.1⟩
  · simp only [List.cons_append, List.head?_cons, Option.some.injEq] at hc
    subst hc
    rcases he with rfl | rfl <;> exact ⟨rfl, by decide⟩

theorem parseExpDigits_rt (e : Char) (cs sg ds rest : List Char)
    (hds : ds ≠ []) (hdig : ∀ c ∈ ds, isDig c = true) (hrest : NumStopHead rest) :
    parseExpDigits e cs sg (ds ++ rest) = (e :: sg ++ ds, rest) := by
  have hsplit := takeWhile_digits_append ds rest hdig (fun c hc => (hrest c hc).1)
  unfold parseExpDigits
  rw [hsplit.1, hsplit.2]
  cases ds with
  | nil => exact absurd rfl hds
  | cons d ds' => rfl

theorem parseExpPart_rt (ep rest : List Char) (hep : IsExpPart ep)
    (hrest : NumStopHead rest) : parseExpPart (ep ++ rest) = (ep, rest) := by
  rcases hep with rfl | ⟨e, sg, ds, rfl, he, hsg, hds, hdig⟩
  · simp only [List.nil_append]
    cases rest with
    | nil => rfl
    | cons c r =>
      have h := hrest c rfl
      simp [parseExpPart, h.2.2.1, h.2.2.2]
  · have he' : e = 'e' ∨ e = 'E' := he
    have hstep := parseExpDigits_rt e ((e :: sg ++ ds) ++ rest) sg ds rest hds hdig hrest
    cases ds with
    | nil => exact absurd rfl hds
    | cons d ds' =>
      have hd : isDig d = true := hdig d (List.mem_cons_self d ds')
      have hdm : d ≠ '+' ∧ d ≠ '-' := by
        constructor <;> rintro rfl <;> simp [isDig] at hd
      rcases hsg with rfl | rfl | rfl
      · simp only [List.nil_append, List.cons_append] at hstep ⊢
        simpa [parseExpPart, parseExpSign, if_pos he', hdm.1, hdm.2] using hstep
      · simp only [List.singleton_append, List.cons_append, List.append_assoc] at hstep ⊢
        simpa [parseExpPart, parseExpSign, if_pos he'] using hstep
      · simp only [List.singleton_append, List.cons_append, List.append_assoc] at hstep ⊢
        simpa [parseExpPart, parseExpSign, if_pos he'] using hstep

theorem parseFrac_rt (fp rest : List Char) (hfp : IsFracPart fp)
    (hrest : ∀ c, rest.head? = some c → isDig c = false ∧ c ≠ '.') :
    parseFrac (fp ++ rest) = (fp, rest) := by
  rcases hfp with rfl | ⟨ds, rfl, hds, hdig⟩
  · simp only [List.nil_append]
    cases rest with
    | nil => rfl
    | cons c r => simp [parseFrac, (hrest c rfl).2]
  · have hsplit := takeWhile_digits_append ds rest hdig (fun c hc => (hrest c hc).1)
    simp only [List.cons_append, parseFrac, reduceIte]
    rw [hsplit.1, hsplit.2]
    cases ds with
    | nil => exact absurd rfl hds
    | cons d ds' => rfl

theorem numAfterInt_int (sgn ip rest : List Char) (pos : Nat) (hrest : NumStopHead rest) :
    numAfterInt sgn ip rest pos =
      .ok (.int (if sgn = [] then (digitsVal ip : Int) else -(digitsVal ip : Int)), rest,
        pos + (sgn.length + ip.length)) := by
  have hfrac : parseFrac rest = ([], rest) := by
    have := parseFrac_rt [] rest (Or.inl rfl) (fun c hc => ⟨(hrest c hc).1, (hrest c hc).2.1⟩)
    simpa using this
  have hexp : parseExpPart rest = ([], rest) := by
    have := parseExpPart_rt [] rest (Or.inl rfl) hrest
    simpa using this
  simp [numAfterInt, hfrac, hexp]

theorem numAfterInt_flo (sgn ip fp ep rest : List Char) (pos : Nat)
    (hfp : IsFracPart fp) (hep : IsExpPart ep) (hne : fp ≠ [] ∨ ep ≠ [])
    (hrest : NumStopHead rest) :
    numAfterInt sgn ip (fp ++ ep ++ rest) pos =
      .ok (.flo (String.mk (sgn ++ ip ++ fp ++ ep)), rest,
        pos + (sgn.length + ip.length + fp.length + ep.length)) := by
  have hfrac : parseFrac (fp ++ ep ++ rest) = (fp, ep ++ rest) := by
    rw [List.append_assoc]
    exact parseFrac_rt fp (ep ++ rest) hfp (expPart_head hep hrest)
  have hexp : parseExpPart (ep ++ rest) = (ep, rest) := parseExpPart_rt ep rest hep hrest
  simp only [numAfterInt, hfrac, hexp]
  rcases hne with hne | hne
  · simp [hne]
  · by_cases hfp0 : fp = [] <;> simp [hne, hfp0]

theorem isDig_toNat {c : Char} (h : isDig c = true) : 48 ≤ c.toNat ∧ c.toNat ≤ 57 := by
  simp only [isDig, Bool.and_eq_true, decide_eq_true_eq] at h
  obtain ⟨h1, h2⟩ := h
  rw [Char.le_def] at h1 h2
  exact ⟨h1, h2⟩

theorem isDig_ne {c : Char} (h : isDig c = true) :
    c ≠ '-' ∧ c ≠ '.' ∧ c ≠ 'e' ∧ c ≠ 'E' ∧ c ≠ '+' := by
  have hv := isDig_toNat h
  refine ⟨?_, ?_, ?_, ?_, ?_⟩ <;> rintro rfl <;> revert hv <;> decide

/-- `parseNumBody` on a digit run: hand the integer part to
`numAfterInt`. -/
theorem parseNumBody_digits (sgn ds rest : List Char) (pos : Nat)
    (hne : ds ≠ []) (hdig : ∀ c ∈ ds, isDig c = true)
    (hhd : ds.head? = some '0' → ds = ['0'])
    (hrest : NumStopHead rest) :
    parseNumBody sgn (ds ++ rest) pos = numAfterInt sgn ds rest pos := by
  cases ds with
  | nil => exact absurd rfl hne
  | cons d dtl =>
    have hd : isDig d = true := hdig d (List.mem_cons_self d dtl)
    by_cases hd0 : d = '0'
    · have : d :: dtl = ['0'] := hhd (by rw [hd0]; rfl)
      have hdtl : dtl = [] := by injection this with _ h
      subst hdtl hd0
      simp [parseNumBody]
    · have hsplit := takeWhile_digits_append dtl rest
        (fun c hc => hdig c (List.mem_cons_of_mem d hc)) (fun c hc => (hrest c hc).1)
      simp only [List.cons_append, parseNumBody, if_neg hd0, hd, if_true]
      rw [hsplit.1, hsplit.2]

/-- The decimal repr of a Python `int` parses back to the same integer. -/
theorem parseNumber_intRepr (n : Int) (rest : List Char) (pos : Nat)
    (hrest : NumStopHead rest) :
    parseNumber (intRepr n ++ rest) pos = .ok (.int n, rest, pos + (intRepr n).length) := by
  by_cases hn : n < 0
  · obtain ⟨ds, hds_eq, hne, hdig, hval, hzero, hhd⟩ := natDigits_spec (-n).toNat
    have hm : 1 ≤ (-n).toNat := by omega
    have hrepr : intRepr n = '-' :: ds := by simp [intRepr, hn, hds_eq]
    rw [hrepr]
    have hbody := parseNumBody_digits ['-'] ds rest pos hne hdig
      (fun hh => absurd hh (hhd hm)) hrest
    simp only [List.cons_append] at hbody ⊢
    simp only [parseNumber, reduceIte]
    rw [hbody, numAfterInt_int ['-'] ds rest pos hrest]
    simp only [List.length_cons, List.length_nil, Except.ok.injEq, Prod.mk.injEq]
    refine ⟨?_, trivial, by omega⟩
    congr 1
    rw [if_neg (by exact List.cons_ne_nil '-' []), hval]
    omega
  · obtain ⟨ds, hds_eq, hne, hdig, hval, hzero, hhd⟩ := natDigits_spec n.toNat
    have hrepr : intRepr n = ds := by simp [intRepr, hn, hds_eq]
    rw [hrepr]
    have hd0 : ds.head? = some '0' → ds = ['0'] := by
      intro hh
      by_cases hm : n.toNat = 0
      · exact hzero hm
      · exact absurd hh (hhd (by omega))
    have hbody := parseNumBody_digits [] ds rest pos hne hdig hd0 hrest
    have hfirst : ∃ d dtl, ds = d :: dtl ∧ isDig d = true := by
      cases ds with
      | nil => exact absurd rfl hne
      | cons d dtl => exact ⟨d, dtl, rfl, hdig d (List.mem_cons_self d dtl)⟩
    obtain ⟨d, dtl, rfl, hd⟩ := hfirst
    simp only [List.cons_append] at hbody ⊢
    simp only [parseNumber, if_neg (isDig_ne hd).1]
    rw [hbody, numAfterInt_int [] (d :: dtl) rest pos hrest]
    simp only [List.length_cons, List.length_nil, Except.ok.injEq, Prod.mk.injEq]
    refine ⟨?_, trivial, by omega⟩
    congr 1
    simp only [reduceIte, hval]
    omega

theorem isDig_of_toNat {c : Char} (h1 : 48 ≤ c.toNat) (h2 : c.toNat ≤ 57) :
    isDig c = true := by
  simp only [isDig, Bool.and_eq_true, decide_eq_true_eq]
  rw [Char.le_def, Char.le_def]
  exact ⟨h1, h2⟩

theorem intPart_first {ip : List Char} (hip : IsIntPart ip) :
    ∃ d ds, ip = d :: ds ∧ isDig d = true ∧ (d = '0' → ip = ['0'])
      ∧ (∀ c ∈ ds, isDig c = true) := by
  rcases hip with rfl | ⟨d, ds, rfl, hd19, hds⟩
  · exact ⟨'0', [], rfl, by decide, fun _ => rfl, by simp⟩
  · refine ⟨d, ds, rfl, isDig_of_toNat (by omega) hd19.2, ?_, hds⟩
    intro h0
    subst h0
    exact absurd hd19.1 (by decide)

/-- The head of a fraction-exponent-stop suffix is never a digit. -/
theorem fracExp_head {fp ep rest : List Char} (hfp : IsFracPart fp) (hep : IsExpPart ep)
    (hrest : NumStopHead rest) :
    ∀ c, (fp ++ ep ++ rest).head? = some c → isDig c = false := by
  intro c hc
  rcases hfp with rfl | ⟨ds, rfl, _, _⟩
  · simp only [List.nil_append] at hc
    exact (expPart_head hep hrest c hc).1
  · simp only [List.cons_append, List.head?_cons, Option.some.injEq] at hc
    subst hc
    rfl

/-- A `NUMBER_RE` float token parses back to itself. -/
theorem parseNumber_numTok (sgn ip fp ep rest : List Char) (pos : Nat)
    (hsgn : sgn = [] ∨ sgn = ['-']) (hip : IsIntPart ip) (hfp : IsFracPart fp)
    (hep : IsExpPart ep) (hne : fp ≠ [] ∨ ep ≠ []) (hrest : NumStopHead rest) :
    parseNumber (sgn ++ ip ++ fp ++ ep ++ rest) pos =
      .ok (.flo (String.mk (sgn ++ ip ++ fp ++ ep)), rest,
        pos + (sgn.length + ip.length + fp.length + ep.length)) := by
  obtain ⟨d, ds, rfl, hd, hd0, hds⟩ := intPart_first hip
  have htail : ∀ c, (fp ++ ep ++ rest).head? = some c → isDig c = false :=
    fracExp_head hfp hep hrest
  have hbody : parseNumBody sgn ((d :: ds) ++ (fp ++ ep ++ rest)) pos =
      numAfterInt sgn (d :: ds) (fp ++ ep ++ rest) pos := by
    by_cases h0 : d = '0'
    · have := hd0 h0
      have hds_nil : ds = [] := by injection this with _ h
      subst hds_nil h0
      simp [parseNumBody]
    · have hsplit := takeWhile_digits_append ds (fp ++ ep ++ rest) hds htail
      simp only [List.cons_append, parseNumBody, if_neg h0, hd, if_true]
      rw [hsplit.1, hsplit.2]
  have hflo := numAfterInt_flo sgn (d :: ds) fp ep rest pos hfp hep hne hrest
  rcases hsgn with rfl | rfl
  · simp only [List.nil_append, List.cons_append, List.append_assoc] at hbody hflo ⊢
    simp only [parseNumber, if_neg (isDig_ne hd).1]
    rw [hbody, hflo]
  · simp only [List.singleton_append, List.cons_append, List.append_assoc,
      List.nil_append] at hbody hflo ⊢
    simp only [parseNumber, reduceIte]
    rw [hbody, hflo]

/-! ## Well-formed values

`JWf` characterises the image of the parser: object keys are distinct at
every level (the parser builds Python `dict`s) and float tokens have the
shape the scanner produces.  The round trip holds on this fragment. -/

mutual

/-- Well-formed parse result. -/
def JWf : JValue → Prop
  | .null => True
  | .bool _ => True
  | .int _ => True
  | .flo t => NumTok t.data
  | .str _ => True
  | .arr xs => JWfL xs
  | .obj ps => (ps.map Prod.fst).Nodup ∧ JWfP ps

/-- All list elements well-formed. -/
def JWfL : List JValue → Prop
  | [] => True
  | x :: xs => JWf x ∧ JWfL xs

/-- All member values well-formed. -/
def JWfP : List (String × JValue) → Prop
  | [] => True
  | p :: ps => JWf p.2 ∧ JWfP ps

end

theorem JWfL_iff (xs : List JValue) : JWfL xs ↔ ∀ x ∈ xs, JWf x := by
  induction xs with
  | nil => simp [JWfL]
  | cons x xs ih => simp [JWfL, ih]

theorem JWfP_iff (ps : List (String × JValue)) : JWfP ps ↔ ∀ q ∈ ps, JWf q.2 := by
  induction ps with
  | nil => simp [JWfP]
  | cons p ps ih => simp [JWfP, ih]

/-! ### The parser only produces well-formed values -/

theorem mem_takeWhile_isDig (r : List Char) : ∀ c ∈ r.takeWhile isDig, isDig c = true :=
  fun _ hc => List.mem_takeWhile_imp hc

theorem parseExpDigits_spec (e : Char) (cs sg r2 l r : List Char)
    (he : e = 'e' ∨ e = 'E') (hsg : sg = [] ∨ sg = ['+'] ∨ sg = ['-'])
    (h : parseExpDigits e cs sg r2 = (l, r)) : IsExpPart l := by
  unfold parseExpDigits at h
  rcases htw : r2.takeWhile isDig with _ | ⟨d, ds⟩
  · rw [htw] at h
    exact Or.inl (Prod.mk.injEq .. ▸ h).1.symm
  · rw [htw] at h
    refine Or.inr ⟨e, sg, d :: ds, (Prod.mk.injEq .. ▸ h).1.symm, he, hsg, by simp, ?_⟩
    rw [← htw]
    exact mem_takeWhile_isDig r2

theorem parseExpPart_spec (cs l r : List Char) (h : parseExpPart cs = (l, r)) :
    IsExpPart l := by
  rcases cs with _ | ⟨e, r0⟩ <;> simp only [parseExpPart] at h
  · exact Or.inl (Prod.mk.injEq .. ▸ h).1.symm
  · by_cases he : e = 'e' ∨ e = 'E'
    · rw [if_pos he] at h
      rcases r0 with _ | ⟨c, t⟩ <;> simp only [parseExpSign] at h
      · exact parseExpDigits_spec e _ [] _ l r he (Or.inl rfl) h
      · by_cases hcp : c = '+'
        · rw [if_pos hcp] at h
          exact parseExpDigits_spec e _ ['+'] _ l r he (Or.inr (Or.inl rfl)) h
        · rw [if_neg hcp] at h
          by_cases hcm : c = '-'
          · rw [if_pos hcm] at h
            exact parseExpDigits_spec e _ ['-'] _ l r he (Or.inr (Or.inr rfl)) h
          · rw [if_neg hcm] at h
            exact parseExpDigits_spec e _ [] _ l r he (Or.inl rfl) h
    · rw [if_neg he] at h
      exact Or.inl (Prod.mk.injEq .. ▸ h).1.symm

theorem parseFrac_spec (cs l r : List Char) (h : parseFrac cs = (l, r)) : IsFracPart l := by
  rcases cs with _ | ⟨c, r0⟩ <;> simp only [parseFrac] at h
  · exact Or.inl (Prod.mk.injEq .. ▸ h).1.symm
  · by_cases hc : c = '.'
    · rw [if_pos hc] at h
      rcases htw : r0.takeWhile isDig with _ | ⟨d, ds⟩
      · rw [htw] at h
        exact Or.inl (Prod.mk.injEq .. ▸ h).1.symm
      · rw [htw] at h
        refine Or.inr ⟨d :: ds, (Prod.mk.injEq .. ▸ h).1.symm, by simp, ?_⟩
        rw [← htw]
        exact mem_takeWhile_isDig r0
    · rw [if_neg hc] at h
      exact Or.inl (Prod.mk.injEq .. ▸ h).1.symm

theorem numAfterInt_spec (sgn ip cs : List Char) (pos : Nat) (v : JValue)
    (r : List Char) (p : Nat)
    (hsgn : sgn = [] ∨ sgn = ['-']) (hip : IsIntPart ip)
    (h : numAfterInt sgn ip cs pos = .ok (v, r, p)) : JWf v := by
  rcases hfr : parseFrac cs with ⟨fp, cs2⟩
  rcases hex : parseExpPart cs2 with ⟨ep, cs3⟩
  unfold numAfterInt at h
  simp only [hfr] at h
  simp only [hex] at h
  by_cases hboth : fp = [] ∧ ep = []
  · rw [if_pos hboth] at h
    have := (Except.ok.injEq .. ▸ h).symm
    have hv : v = .int (if sgn = [] then (digitsVal ip : Int) else -(digitsVal ip : Int)) :=
      (Prod.mk.injEq .. ▸ this).1
    rw [hv]
    trivial
  · rw [if_neg hboth] at h
    have := (Except.ok.injEq .. ▸ h).symm
    have hv : v = .flo (String.mk (sgn ++ ip ++ fp ++ ep)) := (Prod.mk.injEq .. ▸ this).1
    rw [hv]
    show NumTok (String.mk (sgn ++ ip ++ fp ++ ep)).data
    refine Or.inr (Or.inr (Or.inr ⟨sgn, ip, fp, ep, rfl, hsgn, hip,
      parseFrac_spec cs fp cs2 hfr, parseExpPart_spec cs2 ep cs3 hex, ?_⟩))
    by_contra hcon
    push_neg at hcon
    exact hboth ⟨hcon.1, hcon.2⟩

theorem parseNumBody_spec (sgn cs1 : List Char) (pos : Nat) (v : JValue)
    (r : List Char) (p : Nat) (hsgn : sgn = [] ∨ sgn = ['-'])
    (h : parseNumBody sgn cs1 pos = .ok (v, r, p)) : JWf v := by
  rcases cs1 with _ | ⟨c, r0⟩ <;> simp only [parseNumBody] at h
  · exact absurd h (by simp)
  · by_cases hc0 : c = '0'
    · rw [if_pos hc0] at h
      exact numAfterInt_spec sgn ['0'] r0 pos v r p hsgn (Or.inl rfl) h
    · rw [if_neg hc0] at h
      by_cases hcd : isDig c = true
      · rw [if_pos hcd] at h
        refine numAfterInt_spec sgn (c :: r0.takeWhile isDig) (r0.dropWhile isDig)
          pos v r p hsgn ?_ h
        have hrange := isDig_toNat hcd
        have hne48 : c.toNat ≠ 48 := by
          intro h48
          exact hc0 (by rw [← Char.ofNat_toNat c, h48])
        exact Or.inr ⟨c, r0.takeWhile isDig, rfl, ⟨by omega, hrange.2⟩,
          mem_takeWhile_isDig r0⟩
      · rw [if_neg hcd] at h
        exact absurd h (by simp)

theorem parseNumber_spec (cs : List Char) (pos : Nat) (v : JValue) (r : List Char)
    (p : Nat) (h : parseNumber cs pos = .ok (v, r, p)) : JWf v := by
  rcases cs with _ | ⟨c, r0⟩ <;> simp only [parseNumber] at h
  · exact absurd h (by simp)
  · by_cases hc : c = '-'
    · rw [if_pos hc] at h
      exact parseNumBody_spec ['-'] r0 pos v r p (Or.inr rfl) h
    · rw [if_neg hc] at h
      exact parseNumBody_spec [] (c :: r0) pos v r p (Or.inl rfl) h

theorem dictInsert_wf (ps : List (String × JValue)) (k : String) (v : JValue)
    (hps : ∀ q ∈ ps, JWf q.2) (hnd : (ps.map Prod.fst).Nodup) (hv : JWf v) :
    (∀ q ∈ dictInsert ps k v, JWf q.2) ∧ ((dictInsert ps k v).map Prod.fst).Nodup := by
  unfold dictInsert
  by_cases hmem : ps.any (fun p => p.1 == k) = true
  · rw [if_pos hmem]
    constructor
    · intro q hq
      obtain ⟨p, hp, hq⟩ := List.mem_map.mp hq
      by_cases hk : p.1 == k
      · rw [if_pos hk] at hq
        rw [← hq]
        exact hv
      · rw [if_neg hk] at hq
        rw [← hq]
        exact hps p hp
    · rw [List.map_map]
      have : (Prod.fst ∘ fun p : String × JValue => if p.1 == k then (p.1, v) else p) =
          Prod.fst := by
        funext p
        by_cases hk : p.1 = k <;> simp [hk]
      rw [this]
      exact hnd
  · rw [if_neg hmem]
    have hnot : k ∉ ps.map Prod.fst := by
      intro hk
      obtain ⟨p, hp, hpk⟩ := List.mem_map.mp hk
      have := List.any_eq_false.mp (Bool.not_eq_true _ ▸ hmem) p hp
      simp only [beq_iff_eq] at this
      exact this hpk
    constructor
    · intro q hq
      rcases List.mem_append.mp hq with hq | hq
      · exact hps q hq
      · rcases List.mem_singleton.mp hq with rfl
        exact hv
    · rw [List.map_append]
      refine List.Nodup.append hnd (by simp) ?_
      intro a ha hb
      rcases List.mem_singleton.mp (by simpa using hb) with rfl
      exact hnot ha

/-- When the key is fresh, Python dict assignment is plain append. -/
theorem dictInsert_not_mem (ps : List (String × JValue)) (k : String) (v : JValue)
    (h : k ∉ ps.map Prod.fst) : dictInsert ps k v = ps ++ [(k, v)] := by
  unfold dictInsert
  rw [if_neg]
  simp only [List.any_eq_true, beq_iff_eq, not_exists]
  intro p hp
  exact h (List.mem_map.mpr ⟨p, hp.1, hp.2⟩)

theorem elemsLoop_wf (pv : List Char → Nat → ScanRes)
    (hpv : ∀ cs pos v r p, pv cs pos = .ok (v, r, p) → JWf v) :
    ∀ (lf : Nat) (cs : List Char) (pos : Nat) (acc : List JValue),
      (∀ x ∈ acc, JWf x) →
      ∀ v r p, elemsLoop pv lf cs pos acc = .ok (v, r, p) → JWf v := by
  intro lf
  induction lf with
  | zero => intro cs pos acc hacc v r p h; exact absurd h (by simp [elemsLoop])
  | succ lf ih =>
    intro cs pos acc hacc v r p h
    simp only [elemsLoop] at h
    rcases hpv0 : pv cs pos with e | ⟨v0, cs2, p2⟩
    · simp only [hpv0] at h
      exact absurd h (by simp)
    simp only [hpv0] at h
    have hv0 : JWf v0 := hpv cs pos v0 cs2 p2 hpv0
    have hacc2 : ∀ x ∈ acc ++ [v0], JWf x := by
      intro x hx
      rcases List.mem_append.mp hx with hx | hx
      · exact hacc x hx
      · rcases List.mem_singleton.mp hx with rfl
        exact hv0
    rcases hsw : skipWs cs2 p2 with ⟨cs3, p3⟩
    simp only [hsw] at h
    split at h
    · simp only [Except.ok.injEq, Prod.mk.injEq] at h
      obtain ⟨hv, -, -⟩ := h
      subst hv
      show JWfL (acc ++ [v0])
      exact (JWfL_iff _).mpr hacc2
    · exact ih _ _ _ hacc2 v r p h
    · exact absurd h (by simp)

theorem membersLoop_wf (pv : List Char → Nat → ScanRes)
    (hpv : ∀ cs pos v r p, pv cs pos = .ok (v, r, p) → JWf v) :
    ∀ (lf : Nat) (cs : List Char) (pos : Nat) (acc : List (String × JValue)),
      (∀ q ∈ acc, JWf q.2) → (acc.map Prod.fst).Nodup →
      ∀ v r p, membersLoop pv lf cs pos acc = .ok (v, r, p) → JWf v := by
  intro lf
  induction lf with
  | zero => intro cs pos acc hacc hnd v r p h; exact absurd h (by simp [membersLoop])
  | succ lf ih =>
    intro cs pos acc hacc hnd v r p h
    simp only [membersLoop] at h
    rcases hks : scanStr (cs.length + 1) cs pos (pos - 1) [] with e | ⟨k, cs2, p2⟩
    · simp only [hks] at h
      exact absurd h (by simp)
    simp only [hks] at h
    rcases hsw : skipWs cs2 p2 with ⟨cs3, p3⟩
    simp only [hsw] at h
    split at h
    case _ cs4 =>
      rcases hsw2 : skipWs cs4 (p3 + 1) with ⟨cs5, p5⟩
      simp only [hsw2] at h
      rcases hpv0 : pv cs5 p5 with e | ⟨v0, cs6, p6⟩
      · simp only [hpv0] at h
        exact absurd h (by simp)
      simp only [hpv0] at h
      have hv0 : JWf v0 := hpv cs5 p5 v0 cs6 p6 hpv0
      obtain ⟨hacc2, hnd2⟩ := dictInsert_wf acc k v0 hacc hnd hv0
      rcases hsw3 : skipWs cs6 p6 with ⟨cs7, p7⟩
      simp only [hsw3] at h
      split at h
      · simp only [Except.ok.injEq, Prod.mk.injEq] at h
        obtain ⟨hv, -, -⟩ := h
        subst hv
        exact ⟨hnd2, (JWfP_iff _).mpr hacc2⟩
      · rename_i cs8
        rcases hsw4 : skipWs cs8 (p7 + 1) with ⟨cs9, p9⟩
        simp only [hsw4] at h
        split at h
        · exact ih _ _ _ hacc2 hnd2 v r p h
        · exact absurd h (by simp)
      · exact absurd h (by simp)
    case _ => exact absurd h (by simp)

set_option maxHeartbeats 1600000 in
/-- Every value the scanner returns is well-formed. -/
theorem scan_once_wf : ∀ (fuel : Nat) (cs : List Char) (pos : Nat) (v : JValue)
    (r : List Char) (p : Nat), scan_once fuel cs pos = .ok (v, r, p) → JWf v := by
  intro fuel
  induction fuel with
  | zero => intro cs pos v r p h; exact absurd h (by simp [scan_once])
  | succ fuel ih =>
    intro cs pos v r p h
    rcases cs with _ | ⟨c, rest⟩ <;> simp only [scan_once, scanBody] at h
    · exact absurd h (by simp)
    · split_ifs at h with h1 h2 h3 h4 h5 h6 h7 h8 h9
      · rcases hs : scanStr (rest.length + 1) rest (pos + 1) pos [] with e | ⟨s, cs2, p2⟩
        · simp only [hs] at h
          exact absurd h (by simp)
        simp only [hs] at h
        simp only [Except.ok.injEq, Prod.mk.injEq] at h
        obtain ⟨hv, -, -⟩ := h
        subst hv
        trivial
      · rcases hsw : skipWs rest (pos + 1) with ⟨cs1, p1⟩
        simp only [hsw] at h
        split at h
        · simp only [Except.ok.injEq, Prod.mk.injEq] at h
          obtain ⟨hv, -, -⟩ := h
          subst hv
          exact ⟨by simp, trivial⟩
        · exact membersLoop_wf (scan_once fuel) ih _ _ _ [] (by simp) (by simp) v r p h
        · exact absurd h (by simp)
      · rcases hsw : skipWs rest (pos + 1) with ⟨cs1, p1⟩
        simp only [hsw] at h
        split at h
        · simp only [Except.ok.injEq, Prod.mk.injEq] at h
          obtain ⟨hv, -, -⟩ := h
          subst hv
          trivial
        · exact elemsLoop_wf (scan_once fuel) ih _ _ _ [] (by simp) v r p h
      · split at h
        · simp only [Except.ok.injEq, Prod.mk.injEq] at h
          obtain ⟨hv, -, -⟩ := h
          subst hv
          trivial
        · exact parseNumber_spec _ _ _ _ _ h
      · split at h
        · simp only [Except.ok.injEq, Prod.mk.injEq] at h
          obtain ⟨hv, -, -⟩ := h
          subst hv
          trivial
        · exact parseNumber_spec _ _ _ _ _ h
      · split at h
        · simp only [Except.ok.injEq, Prod.mk.injEq] at h
          obtain ⟨hv, -, -⟩ := h
          subst hv
          trivial
        · exact parseNumber_spec _ _ _ _ _ h
      · split at h
        · simp only [Except.ok.injEq, Prod.mk.injEq] at h
          obtain ⟨hv, -, -⟩ := h
          subst hv
          exact Or.inl rfl
        · exact parseNumber_spec _ _ _ _ _ h
      · split at h
        · simp only [Except.ok.injEq, Prod.mk.injEq] at h
          obtain ⟨hv, -, -⟩ := h
          subst hv
          exact Or.inr (Or.inl rfl)
        · exact parseNumber_spec _ _ _ _ _ h
      · split at h
        · simp only [Except.ok.injEq, Prod.mk.injEq] at h
          obtain ⟨hv, -, -⟩ := h
          subst hv
          exact Or.inr (Or.inr (Or.inl rfl))
        · exact parseNumber_spec _ _ _ _ _ h
      · exact parseNumber_spec _ _ _ _ _ h

/-! ### Nesting depth, which bounds the scanner fuel -/

mutual

/-- Nesting depth of a value (scalar = 1). -/
def jdepth : JValue → Nat
  | .arr xs => jdepthL xs + 1
  | .obj ps => jdepthP ps + 1
  | _ => 1

/-- Maximum depth of list elements. -/
def jdepthL : List JValue → Nat
  | [] => 0
  | x :: xs => max (jdepth x) (jdepthL xs)

/-- Maximum depth of member values. -/
def jdepthP : List (String × JValue) → Nat
  | [] => 0
  | p :: ps => max (jdepth p.2) (jdepthP ps)

end

theorem jdepthL_ge (L : List JValue) : ∀ y ∈ L, jdepth y ≤ jdepthL L := by
  induction L with
  | nil => simp
  | cons x xs ih =>
    intro y hy
    rcases List.mem_cons.mp hy with rfl | hy
    · simp [jdepthL]
    · exact le_trans (ih y hy) (by simp [jdepthL])

theorem jdepthP_ge (L : List (String × JValue)) : ∀ q ∈ L, jdepth q.2 ≤ jdepthP L := by
  induction L with
  | nil => simp
  | cons p ps ih =>
    intro q hq
    rcases List.mem_cons.mp hq with rfl | hq
    · simp [jdepthP]
    · exact le_trans (ih q hq) (by simp [jdepthP])

/-! ### Heads and lengths of encodings -/

theorem isDig_not_ws {c : Char} (h : isDig c = true) : isJsonWs c = false := by
  have hv := isDig_toNat h
  simp only [isJsonWs]
  have c1 : c ≠ ' ' := by rintro rfl; revert hv; decide
  have c2 : c ≠ '\t' := by rintro rfl; revert hv; decide
  have c3 : c ≠ '\n' := by rintro rfl; revert hv; decide
  have c4 : c ≠ '\r' := by rintro rfl; revert hv; decide
  simp [c1, c2, c3, c4]

theorem numTok_ne_nil {t : List Char} (h : NumTok t) : t ≠ [] := by
  rcases h with rfl | rfl | rfl | ⟨sgn, ip, fp, ep, rfl, hsgn, hip, _, _, _⟩
  · simp
  · simp
  · simp
  · rcases hsgn with rfl | rfl
    · rcases hip with rfl | ⟨d, ds, rfl, _, _⟩ <;> simp
    · simp

theorem numTok_head {t : List Char} (h : NumTok t) :
    ∀ c, t.head? = some c → isJsonWs c = false := by
  intro c hc
  rcases h with rfl | rfl | rfl | ⟨sgn, ip, fp, ep, rfl, hsgn, hip, _, _, _⟩
  · simp at hc; subst hc; rfl
  · simp at hc; subst hc; rfl
  · simp at hc; subst hc; rfl
  · rcases hsgn with rfl | rfl
    · rcases hip with rfl | ⟨d, ds, rfl, hd, _⟩
      · simp at hc; subst hc; rfl
      · simp at hc
        subst hc
        exact isDig_not_ws (isDig_of_toNat (by omega) hd.2)
    · simp at hc; subst hc; rfl

/-- A well-formed encoding is non-empty and never starts with JSON
whitespace. -/
theorem encVal_head (v : JValue) (hwf : JWf v) (ind : Option Int) (lvl : Nat) :
    encVal v ind lvl ≠ [] ∧
      ∀ c, (encVal v ind lvl).head? = some c → isJsonWs c = false := by
  cases v with
  | null => exact ⟨by simp [encVal], by intro c hc; simp [encVal] at hc; subst hc; rfl⟩
  | bool b => cases b <;>
      exact ⟨by simp [encVal], by intro c hc; simp [encVal] at hc; subst hc; rfl⟩
  | int n =>
    unfold encVal intRepr
    by_cases hn : n < 0
    · rw [if_pos hn]
      exact ⟨by simp, by intro c hc; simp at hc; subst hc; rfl⟩
    · rw [if_neg hn]
      obtain ⟨ds, hds_eq, hne, hdig, _, _, _⟩ := natDigits_spec n.toNat
      rw [hds_eq]
      cases ds with
      | nil => exact absurd rfl hne
      | cons d dtl =>
        refine ⟨by simp, ?_⟩
        intro c hc
        simp at hc
        subst hc
        exact isDig_not_ws (hdig d (List.mem_cons_self d dtl))
  | flo t =>
    have hnt : NumTok t.data := hwf
    exact ⟨by simpa [encVal] using numTok_ne_nil hnt, by
      intro c hc
      exact numTok_head hnt c (by simpa [encVal] using hc)⟩
  | str s =>
    exact ⟨by simp [encVal, encStr], by
      intro c hc; simp [encVal, encStr] at hc; subst hc; rfl⟩
  | arr xs =>
    cases xs with
    | nil => exact ⟨by simp [encVal], by intro c hc; simp [encVal] at hc; subst hc; rfl⟩
    | cons x xs =>
      exact ⟨by simp [encVal], by intro c hc; simp [encVal] at hc; subst hc; rfl⟩
  | obj ps =>
    cases ps with
    | nil => exact ⟨by simp [encVal], by intro c hc; simp [encVal] at hc; subst hc; rfl⟩
    | cons p ps =>
      exact ⟨by simp [encVal], by intro c hc; simp [encVal] at hc; subst hc; rfl⟩

theorem encVal_length_pos (v : JValue) (hwf : JWf v) (ind : Option Int) (lvl : Nat) :
    1 ≤ (encVal v ind lvl).length := by
  have := (encVal_head v hwf ind lvl).1
  cases h : encVal v ind lvl with
  | nil => exact absurd h this
  | cons c cs => simp

theorem encItemSep_shape (ind : Option Int) (lvl : Nat) :
    ∃ w, encItemSep ind lvl = ',' :: w ∧ WsNl w := by
  cases ind with
  | none => exact ⟨[' '], rfl, by intro c hc; simp at hc; subst hc; exact Or.inr rfl⟩
  | some i =>
    refine ⟨'\n' :: List.replicate (i.toNat * lvl) ' ', rfl, ?_⟩
    intro c hc
    rcases List.mem_cons.mp hc with rfl | hc
    · exact Or.inl rfl
    · exact Or.inr (List.eq_of_mem_replicate hc)

theorem encNl_ws (ind : Option Int) (lvl : Nat) : WsNl (encNl ind lvl) := by
  cases ind with
  | none => intro c hc; simp [encNl] at hc
  | some i =>
    intro c hc
    simp only [encNl] at hc
    rcases List.mem_cons.mp hc with rfl | hc
    · exact Or.inl rfl
    · exact Or.inr (List.eq_of_mem_replicate hc)

/-- Whitespace-or-brace suffixes satisfy `DelimStop`. -/
theorem delimStop_ws_append {w : List Char} (hw : WsNl w) {cs : List Char}
    (hcs : DelimStop cs) : DelimStop (w ++ cs) := by
  intro c hc
  cases w with
  | nil => exact hcs c (by simpa using hc)
  | cons d w' =>
    simp only [List.cons_append, List.head?_cons, Option.some.injEq] at hc
    rcases hw d (List.mem_cons_self d w') with rfl | rfl <;> subst hc
    · exact Or.inr (Or.inr (Or.inr (Or.inl rfl)))
    · exact Or.inr (Or.inr (Or.inr (Or.inr rfl)))

theorem delimStop_cons_of {c : Char}
    (h : c = ',' ∨ c = ']' ∨ c = '\x7d' ∨ c = '\n' ∨ c = ' ') (cs : List Char) :
    DelimStop (c :: cs) := by
  intro d hd
  simp only [List.head?_cons, Option.some.injEq] at hd
  subst hd
  exact h

theorem encItems_length_ge (L : List JValue) (hwf : JWfL L) (ind : Option Int) (lvl : Nat) :
    L.length ≤ (encItems L ind lvl).length := by
  induction L with
  | nil => simp [encItems]
  | cons x xs ih =>
    obtain ⟨hx, hxs⟩ := hwf
    have h1 := encVal_length_pos x hx ind lvl
    obtain ⟨w, hw, -⟩ := encItemSep_shape ind lvl
    have := ih hxs
    simp only [encItems, List.length_cons, List.length_append, hw]
    omega

theorem encPairs_length_ge (L : List (String × JValue)) (hwf : JWfP L)
    (ind : Option Int) (lvl : Nat) : L.length ≤ (encPairs L ind lvl).length := by
  induction L with
  | nil => simp [encPairs]
  | cons p ps ih =>
    obtain ⟨hp, hps⟩ := hwf
    have h1 := encVal_length_pos p.2 hp ind lvl
    obtain ⟨w, hw, -⟩ := encItemSep_shape ind lvl
    have := ih hps
    rcases p with ⟨k, v⟩
    simp only [encPairs, encPair, List.length_cons, List.length_append, hw]
    omega

mutual

/-- The nesting depth never exceeds the encoded length: the document
length bounds the scanner fuel needed. -/
theorem jdepth_le_enc : ∀ (v : JValue), JWf v → ∀ (ind : Option Int) (lvl : Nat),
    jdepth v ≤ (encVal v ind lvl).length
  | .null, _, _, _ => by simp [jdepth, encVal]
  | .bool true, _, _, _ => by simp [jdepth, encVal]
  | .bool false, _, _, _ => by simp [jdepth, encVal]
  | .int n, hwf, ind, lvl => by
      simpa [jdepth] using encVal_length_pos (.int n) hwf ind lvl
  | .flo t, hwf, ind, lvl => by
      simpa [jdepth] using encVal_length_pos (.flo t) hwf ind lvl
  | .str s, hwf, ind, lvl => by
      simpa [jdepth] using encVal_length_pos (.str s) hwf ind lvl
  | .arr [], _, _, _ => by simp [jdepth, jdepthL, encVal]
  | .arr (x :: xs), hwf, ind, lvl => by
      have h1 := jdepth_le_enc x hwf.1 ind (lvl + 1)
      have h2 := jdepthL_le_items xs hwf.2 ind (lvl + 1)
      simp only [jdepth, jdepthL, encVal, List.length_cons, List.length_append]
      omega
  | .obj [], _, _, _ => by simp [jdepth, jdepthP, encVal]
  | .obj (⟨k, v⟩ :: ps), hwf, ind, lvl => by
      have h1 := jdepth_le_enc v hwf.2.1 ind (lvl + 1)
      have h2 := jdepthP_le_pairs ps hwf.2.2 ind (lvl + 1)
      simp only [jdepth, jdepthP, encVal, encPair, List.length_cons, List.length_append]
      omega

theorem jdepthL_le_items : ∀ (L : List JValue), JWfL L → ∀ (ind : Option Int) (lvl : Nat),
    jdepthL L ≤ (encItems L ind lvl).length
  | [], _, _, _ => by simp [jdepthL, encItems]
  | x :: xs, hwf, ind, lvl => by
      have h1 := jdepth_le_enc x hwf.1 ind lvl
      have h2 := jdepthL_le_items xs hwf.2 ind lvl
      simp only [jdepthL, encItems, List.length_append]
      omega

theorem jdepthP_le_pairs : ∀ (L : List (String × JValue)), JWfP L →
    ∀ (ind : Option Int) (lvl : Nat), jdepthP L ≤ (encPairs L ind lvl).length
  | [], _, _, _ => by simp [jdepthP, encPairs]
  | ⟨k, v⟩ :: ps, hwf, ind, lvl => by
      have h1 := jdepth_le_enc v hwf.1 ind lvl
      have h2 := jdepthP_le_pairs ps hwf.2 ind lvl
      simp only [jdepthP, encPairs, encPair, List.length_append]
      omega

end

theorem notWsStart_append {l : List Char} (hne : l ≠ []) (h : NotWsStart l)
    (cs : List Char) : NotWsStart (l ++ cs) := by
  cases l with
  | nil => exact absurd rfl hne
  | cons a l' =>
    intro c hc
    simp only [List.cons_append, List.head?_cons, Option.some.injEq] at hc
    subst hc
    exact h a rfl

theorem jsonWs_rbracket : isJsonWs ']' = false := rfl

theorem jsonWs_rbrace : isJsonWs '\x7d' = false := rfl

/-- The element loop consumes the encoded elements, the pre-bracket
whitespace and the closing bracket, appending the elements to the
accumulator. -/
theorem elemsLoop_rt (pv : List Char → Nat → ScanRes) (ind : Option Int) (lvl : Nat)
    (close : List Char) (hclose : WsNl close) :
    ∀ (L : List JValue) (x : JValue) (acc : List JValue) (lf : Nat) (rest : List Char)
      (pos : Nat),
      (∀ y ∈ x :: L, ∀ rest2 pos2, DelimStop rest2 →
        pv (encVal y ind lvl ++ rest2) pos2 = .ok (y, rest2, pos2 + (encVal y ind lvl).length)) →
      JWfL (x :: L) → L.length + 1 ≤ lf →
      elemsLoop pv lf
        (encVal x ind lvl ++ (encItems L ind lvl ++ (close ++ ']' :: rest))) pos acc =
        .ok (.arr (acc ++ x :: L), rest,
          pos + (encVal x ind lvl).length + (encItems L ind lvl).length
            + close.length + 1) := by
  intro L
  induction L with
  | nil =>
    intro x acc lf rest pos hIH hwf hlf
    obtain ⟨g, rfl⟩ : ∃ g, lf = g + 1 := ⟨lf - 1, by omega⟩
    have hstop : DelimStop (close ++ ']' :: rest) :=
      delimStop_ws_append hclose (delimStop_cons_of (Or.inr (Or.inl rfl)) rest)
    have hpvx := hIH x (List.mem_cons_self x []) (close ++ ']' :: rest) pos hstop
    simp only [encItems, List.nil_append]
    simp only [elemsLoop, hpvx]
    rw [skipWs_append close hclose]
    rw [skipWs_eq_self (']' :: rest) (by
      intro c hc
      simp only [List.head?_cons, Option.some.injEq] at hc
      subst hc
      rfl)]
    simp only [encItems, List.length_nil, Except.ok.injEq, Prod.mk.injEq]
    exact ⟨by trivial, by trivial, by omega⟩
  | cons y L' ih =>
    intro x acc lf rest pos hIH hwf hlf
    obtain ⟨g, rfl⟩ : ∃ g, lf = g + 1 := ⟨lf - 1, by omega⟩
    obtain ⟨w, hw, hwws⟩ := encItemSep_shape ind lvl
    have hstop : DelimStop (encItems (y :: L') ind lvl ++ (close ++ ']' :: rest)) := by
      simp only [encItems, hw, List.cons_append, List.append_assoc]
      exact delimStop_cons_of (Or.inl rfl) _
    have hpvx := hIH x (List.mem_cons_self x (y :: L'))
      (encItems (y :: L') ind lvl ++ (close ++ ']' :: rest)) pos hstop
    have hns : NotWsStart (',' :: (w ++ (encVal y ind lvl ++ (encItems L' ind lvl
        ++ (close ++ ']' :: rest))))) := by
      intro c hc
      simp only [List.head?_cons, Option.some.injEq] at hc
      subst hc
      rfl
    simp only [encItems, hw, List.cons_append, List.append_assoc] at hpvx ⊢
    simp only [elemsLoop, hpvx, skipWs_eq_self _ hns, skipWs_append w hwws,
      skipWs_eq_self _ (notWsStart_append (encVal_head y hwf.2.1 ind lvl).1
        (encVal_head y hwf.2.1 ind lvl).2 _)]
    rw [ih y (acc ++ [x]) g rest _
      (fun z hz => hIH z (List.mem_cons_of_mem x hz)) hwf.2 (by
        simp only [List.length_cons] at hlf ⊢
        omega)]
    simp only [List.append_assoc, List.singleton_append, List.length_append,
      List.length_cons, Except.ok.injEq, Prod.mk.injEq]
    exact ⟨by trivial, by trivial, by omega⟩

/-- Skipping whitespace over a single space before a non-whitespace
suffix (the `': '` key separator). -/
theorem skipWs_space (X : List Char) (h : NotWsStart X) (p : Nat) :
    skipWs (' ' :: X) p = (X, p + 1) := by
  simp only [skipWs, reduceIte]
  exact skipWs_eq_self X h (p + 1)

/-- The member loop consumes the encoded members (entered just after the
opening quote of the first key), the pre-brace whitespace and the closing
brace, appending the members to the accumulator. -/
theorem membersLoop_rt (pv : List Char → Nat → ScanRes) (ind : Option Int) (lvl : Nat)
    (close : List Char) (hclose : WsNl close) :
    ∀ (L : List (String × JValue)) (k : String) (v : JValue)
      (acc : List (String × JValue)) (lf : Nat) (rest : List Char) (pos : Nat),
      (∀ q ∈ (k, v) :: L, ∀ rest2 pos2, DelimStop rest2 →
        pv (encVal q.2 ind lvl ++ rest2) pos2 =
          .ok (q.2, rest2, pos2 + (encVal q.2 ind lvl).length)) →
      JWfP ((k, v) :: L) →
      ((acc ++ (k, v) :: L).map Prod.fst).Nodup →
      L.length + 1 ≤ lf →
      membersLoop pv lf
        (encStrBody k.data ++ '"' :: ':' :: ' ' :: (encVal v ind lvl
          ++ (encPairs L ind lvl ++ (close ++ '\x7d' :: rest)))) pos acc =
        .ok (.obj (acc ++ (k, v) :: L), rest,
          pos + (encStrBody k.data).length + 3 + (encVal v ind lvl).length
            + (encPairs L ind lvl).length + close.length + 1) := by
  intro L
  induction L with
  | nil =>
    intro k v acc lf rest pos hIH hwf hkeys hlf
    obtain ⟨g, rfl⟩ : ∃ g, lf = g + 1 := ⟨lf - 1, by omega⟩
    have hkey := scanStr_rt k.data
      ((encStrBody k.data ++ '"' :: ':' :: ' ' :: (encVal v ind lvl
        ++ (encPairs [] ind lvl ++ (close ++ '\x7d' :: rest)))).length + 1)
      (':' :: ' ' :: (encVal v ind lvl ++ (encPairs [] ind lvl
        ++ (close ++ '\x7d' :: rest)))) [] pos (pos - 1)
      (by simp only [List.length_append, List.length_cons]; omega)
    have hstop : DelimStop (encPairs [] ind lvl ++ (close ++ '\x7d' :: rest)) := by
      simp only [encPairs, List.nil_append]
      exact delimStop_ws_append hclose
        (delimStop_cons_of (Or.inr (Or.inr (Or.inl rfl))) rest)
    have hval := hIH (k, v) (List.mem_cons_self _ _)
      (encPairs [] ind lvl ++ (close ++ '\x7d' :: rest)) (pos + (encStrBody k.data).length + 3)
      hstop
    have hknot : k ∉ acc.map Prod.fst := by
      rw [List.map_append] at hkeys
      intro hk
      exact (List.nodup_append.mp hkeys).2.2 hk (by simp)
    have hcolon : NotWsStart (':' :: ' ' :: (encVal v ind lvl
        ++ (encPairs [] ind lvl ++ (close ++ '\x7d' :: rest)))) := by
      intro c hc
      simp only [List.head?_cons, Option.some.injEq] at hc
      subst hc
      rfl
    simp only [membersLoop, hkey, List.nil_append, List.reverse_nil]
    simp only [skipWs_eq_self _ hcolon]
    simp only [encPairs, List.nil_append] at hval ⊢
    rw [show String.mk k.data = k from rfl]
    simp only [skipWs_space _ (notWsStart_append (encVal_head v hwf.1 ind lvl).1
      (encVal_head v hwf.1 ind lvl).2 _)]
    rw [show pos + (encStrBody k.data).length + 1 + 1 + 1 =
      pos + (encStrBody k.data).length + 3 from by omega]
    simp only [hval]
    rw [skipWs_append close hclose]
    rw [skipWs_eq_self ('\x7d' :: rest) (by
      intro c hc
      simp only [List.head?_cons, Option.some.injEq] at hc
      subst hc
      rfl)]
    rw [dictInsert_not_mem acc k v hknot]
    simp only [Except.ok.injEq, Prod.mk.injEq, encPairs, List.length_nil]
    exact ⟨by simp, by trivial, by omega⟩
  | cons q L' ih =>
    rcases q with ⟨k2, v2⟩
    intro k v acc lf rest pos hIH hwf hkeys hlf
    obtain ⟨g, rfl⟩ : ∃ g, lf = g + 1 := ⟨lf - 1, by omega⟩
    obtain ⟨w, hw, hwws⟩ := encItemSep_shape ind lvl
    have hkey := scanStr_rt k.data
      ((encStrBody k.data ++ '"' :: ':' :: ' ' :: (encVal v ind lvl
        ++ (encPairs ((k2, v2) :: L') ind lvl ++ (close ++ '\x7d' :: rest)))).length + 1)
      (':' :: ' ' :: (encVal v ind lvl ++ (encPairs ((k2, v2) :: L') ind lvl
        ++ (close ++ '\x7d' :: rest)))) [] pos (pos - 1)
      (by simp only [List.length_append, List.length_cons]; omega)
    have hstop : DelimStop (encPairs ((k2, v2) :: L') ind lvl
        ++ (close ++ '\x7d' :: rest)) := by
      simp only [encPairs, hw, List.cons_append, List.append_assoc]
      exact delimStop_cons_of (Or.inl rfl) _
    have hval := hIH (k, v) (List.mem_cons_self _ _)
      (encPairs ((k2, v2) :: L') ind lvl ++ (close ++ '\x7d' :: rest))
      (pos + (encStrBody k.data).length + 3) hstop
    have hknot : k ∉ acc.map Prod.fst := by
      rw [List.map_append] at hkeys
      intro hk
      exact (List.nodup_append.mp hkeys).2.2 hk (by simp)
    have hcolon : NotWsStart (':' :: ' ' :: (encVal v ind lvl
        ++ (encPairs ((k2, v2) :: L') ind lvl ++ (close ++ '\x7d' :: rest)))) := by
      intro c hc
      simp only [List.head?_cons, Option.some.injEq] at hc
      subst hc
      rfl
    simp only [membersLoop, hkey, List.nil_append, List.reverse_nil]
    simp only [skipWs_eq_self _ hcolon]
    rw [show String.mk k.data = k from rfl]
    simp only [skipWs_space _ (notWsStart_append (encVal_head v hwf.1 ind lvl).1
      (encVal_head v hwf.1 ind lvl).2 _)]
    rw [show pos + (encStrBody k.data).length + 1 + 1 + 1 =
      pos + (encStrBody k.data).length + 3 from by omega]
    simp only [hval]
    have hcomma : NotWsStart (',' :: (w ++ (encPair (k2, v2) ind lvl
        ++ (encPairs L' ind lvl ++ (close ++ '\x7d' :: rest))))) := by
      intro c hc
      simp only [List.head?_cons, Option.some.injEq] at hc
      subst hc
      rfl
    simp only [encPairs, hw, List.cons_append, List.append_assoc]
    simp only [skipWs_eq_self _ hcomma]
    rw [skipWs_append w hwws]
    simp only [encPair, encStr, List.cons_append, List.singleton_append,
      List.nil_append, List.append_assoc]
    simp only [skipWs_eq_self _ (by
      intro c hc
      simp only [List.head?_cons, Option.some.injEq] at hc
      subst hc
      rfl : NotWsStart ('"' :: (encStrBody k2.data ++ ('"' :: ':' :: ' ' ::
        (encVal v2 ind lvl ++ (encPairs L' ind lvl ++ (close ++ '\x7d' :: rest)))))))]
    rw [dictInsert_not_mem acc k v hknot]
    rw [ih k2 v2 (acc ++ [(k, v)]) g rest _
      (fun z hz => hIH z (List.mem_cons_of_mem _ hz)) hwf.2 (by
        simpa using hkeys) (by
        simp only [List.length_cons] at hlf ⊢
        omega)]
    simp only [List.append_assoc, List.singleton_append, List.length_append,
      List.length_cons, Except.ok.injEq, Prod.mk.injEq]
    exact ⟨by simp, by trivial, by omega⟩

theorem head?_append_of_ne_nil {l : List Char} (h : l ≠ []) (t : List Char) :
    (l ++ t).head? = l.head? := by
  cases l with
  | nil => exact absurd rfl h
  | cons a l' => rfl

/-- A well-formed encoding never starts with a closing bracket. -/
theorem encVal_head_ne_rb (v : JValue) (hwf : JWf v) (ind : Option Int) (lvl : Nat) :
    ∀ c, (encVal v ind lvl).head? = some c → c ≠ ']' := by
  intro c hc
  cases v with
  | null => simp [encVal] at hc; subst hc; decide
  | bool b => cases b <;> simp [encVal] at hc <;> subst hc <;> decide
  | int n =>
    revert hc
    unfold encVal intRepr
    by_cases hn : n < 0
    · rw [if_pos hn]
      intro hc
      simp at hc
      subst hc
      decide
    · rw [if_neg hn]
      obtain ⟨ds, hds_eq, hne, hdig, _, _, _⟩ := natDigits_spec n.toNat
      rw [hds_eq]
      intro hc
      cases ds with
      | nil => exact absurd rfl hne
      | cons d dtl =>
        simp at hc
        subst hc
        have := isDig_toNat (hdig d (List.mem_cons_self d dtl))
        rintro rfl
        revert this
        decide
  | flo t =>
    have hnt : NumTok t.data := hwf
    simp only [encVal] at hc
    rcases hnt with he | he | he | ⟨sgn, ip, fp, ep, he, hsgn, hip, _, _, _⟩ <;> rw [he] at hc
    · simp at hc; subst hc; decide
    · simp at hc; subst hc; decide
    · simp at hc; subst hc; decide
    · rcases hsgn with rfl | rfl
      · rcases hip with rfl | ⟨d, ds, rfl, hd, _⟩
        · simp at hc; subst hc; decide
        · simp at hc
          subst hc
          rintro rfl
          revert hd
          decide
      · simp at hc; subst hc; decide
  | str s => simp [encVal, encStr] at hc; subst hc; decide
  | arr xs =>
    cases xs <;> simp [encVal] at hc <;> subst hc <;> decide
  | obj ps =>
    cases ps <;> simp [encVal] at hc <;> subst hc <;> decide

/-- The scanner dispatch falls through to the number scan on a digit. -/
theorem scanBody_digit (ih : List Char → Nat → ScanRes) (c : Char) (r : List Char)
    (pos : Nat) (hd : isDig c = true) :
    scanBody ih (c :: r) pos = parseNumber (c :: r) pos := by
  have hv := isDig_toNat hd
  have n1 : c ≠ '"' := by rintro rfl; revert hv; decide
  have n2 : c ≠ '\x7b' := by rintro rfl; revert hv; decide
  have n3 : c ≠ '[' := by rintro rfl; revert hv; decide
  have n4 : c ≠ 'n' := by rintro rfl; revert hv; decide
  have n5 : c ≠ 't' := by rintro rfl; revert hv; decide
  have n6 : c ≠ 'f' := by rintro rfl; revert hv; decide
  have n7 : c ≠ 'N' := by rintro rfl; revert hv; decide
  have n8 : c ≠ 'I' := by rintro rfl; revert hv; decide
  have n9 : c ≠ '-' := by rintro rfl; revert hv; decide
  simp [scanBody, n1, n2, n3, n4, n5, n6, n7, n8, n9]

/-- The scanner dispatch falls through to the number scan on a minus sign
followed by a digit. -/
theorem scanBody_neg (ih : List Char → Nat → ScanRes) (d : Char) (r2 : List Char)
    (pos : Nat) (hd : isDig d = true) :
    scanBody ih ('-' :: d :: r2) pos = parseNumber ('-' :: d :: r2) pos := by
  have hv := isDig_toNat hd
  simp only [scanBody]
  rw [if_neg (by decide), if_neg (by decide), if_neg (by decide), if_neg (by decide),
    if_neg (by decide), if_neg (by decide), if_neg (by decide), if_neg (by decide),
    if_pos trivial]
  split
  · rename_i heq
    injection heq with h1 h2
    subst h1
    exact absurd hv (by decide)
  · rfl

/-- The scanner, on an open bracket followed by whitespace and a non-empty,
non-whitespace, non-bracket stream, enters the element loop. -/
theorem scanBody_lbracket_val (ih : List Char → Nat → ScanRes) (w : List Char) (hw : WsNl w)
    (X : List Char) (hne : X ≠ []) (hX : NotWsStart X)
    (hrb : ∀ c, X.head? = some c → c ≠ ']') (pos : Nat) :
    scanBody ih ('[' :: (w ++ X)) pos =
      elemsLoop ih (X.length + 1) X (pos + 1 + w.length) [] := by
  simp only [scanBody]
  rw [if_neg (by decide), if_neg (by decide), if_pos trivial]
  rw [skipWs_append w hw X, skipWs_eq_self X hX]
  dsimp only
  split
  · rename_i r2
    exact absurd rfl (hrb ']' rfl)
  · rfl

/-- The scanner, on an open brace followed by whitespace and a quote,
enters the member loop. -/
theorem scanBody_lbrace_members (ih : List Char → Nat → ScanRes) (w : List Char) (hw : WsNl w)
    (R2 : List Char) (pos : Nat) :
    scanBody ih ('\x7b' :: (w ++ '"' :: R2)) pos =
      membersLoop ih (R2.length + 1) R2 (pos + 1 + w.length + 1) [] := by
  simp only [scanBody]
  rw [if_neg (by decide), if_pos trivial]
  rw [skipWs_append w hw ('"' :: R2),
    skipWs_eq_self ('"' :: R2) (by intro c hc; simp at hc; subst hc; rfl)]
  rfl

set_option maxHeartbeats 3200000 in
/-- Scanning an encoded well-formed value from a stream consumes exactly the
encoding and returns the value, for any fuel at least the value's depth and
any suffix that starts with a delimiter. -/
theorem scan_enc : ∀ (v : JValue), JWf v → ∀ (ind : Option Int) (lvl fuel : Nat)
    (rest : List Char) (pos : Nat), jdepth v ≤ fuel → DelimStop rest →
    scan_once fuel (encVal v ind lvl ++ rest) pos =
      .ok (v, rest, pos + (encVal v ind lvl).length)
  | .null, _, ind, lvl, fuel, rest, pos, hfuel, _ => by
      obtain ⟨f, rfl⟩ : ∃ f, fuel = f + 1 :=
        ⟨fuel - 1, by have h1 : jdepth JValue.null = 1 := rfl; omega⟩
      rfl
  | .bool true, _, ind, lvl, fuel, rest, pos, hfuel, _ => by
      obtain ⟨f, rfl⟩ : ∃ f, fuel = f + 1 :=
        ⟨fuel - 1, by have h1 : jdepth (JValue.bool true) = 1 := rfl; omega⟩
      rfl
  | .bool false, _, ind, lvl, fuel, rest, pos, hfuel, _ => by
      obtain ⟨f, rfl⟩ : ∃ f, fuel = f + 1 :=
        ⟨fuel - 1, by have h1 : jdepth (JValue.bool false) = 1 := rfl; omega⟩
      rfl
  | .int n, _, ind, lvl, fuel, rest, pos, hfuel, hstop => by
      obtain ⟨f, rfl⟩ : ∃ f, fuel = f + 1 :=
        ⟨fuel - 1, by have h1 : jdepth (JValue.int n) = 1 := rfl; omega⟩
      show scanBody (scan_once f) (intRepr n ++ rest) pos =
        .ok (.int n, rest, pos + (intRepr n).length)
      have hpn := parseNumber_intRepr n rest pos (numStopHead_of_delimStop hstop)
      by_cases hn : n < 0
      · obtain ⟨ds, hds, hne, hdig, hval, hz, hhd⟩ := natDigits_spec (-n).toNat
        have hrepr : intRepr n = '-' :: ds := by simp [intRepr, hn, hds]
        cases ds with
        | nil => exact absurd rfl hne
        | cons d dtl =>
          rw [hrepr] at hpn ⊢
          simp only [List.cons_append] at hpn ⊢
          rw [scanBody_neg (scan_once f) d (dtl ++ rest) pos (hdig d (List.mem_cons_self d dtl))]
          exact hpn
      · obtain ⟨ds, hds, hne, hdig, hval, hz, hhd⟩ := natDigits_spec n.toNat
        have hrepr : intRepr n = ds := by simp [intRepr, hn, hds]
        cases ds with
        | nil => exact absurd rfl hne
        | cons d dtl =>
          rw [hrepr] at hpn ⊢
          simp only [List.cons_append] at hpn ⊢
          rw [scanBody_digit (scan_once f) d (dtl ++ rest) pos
            (hdig d (List.mem_cons_self d dtl))]
          exact hpn
  | .flo t, hwf, ind, lvl, fuel, rest, pos, hfuel, hstop => by
      have hnt : NumTok t.data := hwf
      obtain ⟨f, rfl⟩ : ∃ f, fuel = f + 1 :=
        ⟨fuel - 1, by have h1 : jdepth (JValue.flo t) = 1 := rfl; omega⟩
      rcases hnt with he | he | he | ⟨sgn, ip, fp, ep, he, hsgn, hip, hfp, hep, hne⟩
      · have ht : t = String.mk ['N', 'a', 'N'] := String.ext (he.trans rfl)
        subst ht
        rfl
      · have ht : t = String.mk ['I', 'n', 'f', 'i', 'n', 'i', 't', 'y'] :=
          String.ext (he.trans rfl)
        subst ht
        rfl
      · have ht : t = String.mk ['-', 'I', 'n', 'f', 'i', 'n', 'i', 't', 'y'] :=
          String.ext (he.trans rfl)
        subst ht
        rfl
      · have ht : String.mk (sgn ++ ip ++ fp ++ ep) = t := String.ext he.symm
        have hpn := parseNumber_numTok sgn ip fp ep rest pos hsgn hip hfp hep hne
          (numStopHead_of_delimStop hstop)
        rw [ht] at hpn
        obtain ⟨d, ds, hipe, hd, hd0, hds⟩ := intPart_first hip
        show scanBody (scan_once f) (t.data ++ rest) pos =
          .ok (.flo t, rest, pos + t.data.length)
        rw [he]
        subst hipe
        rcases hsgn with rfl | rfl
        · simp only [List.nil_append, List.cons_append, List.append_assoc] at hpn ⊢
          rw [scanBody_digit (scan_once f) d (ds ++ (fp ++ (ep ++ rest))) pos hd]
          rw [hpn]
          simp only [Except.ok.injEq, Prod.mk.injEq, he, List.length_append, List.length_nil,
            List.length_cons]
          exact ⟨by trivial, by trivial, by omega⟩
        · simp only [List.nil_append, List.cons_append, List.append_assoc] at hpn ⊢
          rw [scanBody_neg (scan_once f) d (ds ++ (fp ++ (ep ++ rest))) pos hd]
          rw [hpn]
          simp only [Except.ok.injEq, Prod.mk.injEq, he, List.length_append, List.length_cons,
            List.length_nil]
          exact ⟨by trivial, by trivial, by omega⟩
  | .str s, _, ind, lvl, fuel, rest, pos, hfuel, _ => by
      obtain ⟨f, rfl⟩ : ∃ f, fuel = f + 1 :=
        ⟨fuel - 1, by have h1 : jdepth (JValue.str s) = 1 := rfl; omega⟩
      show scanBody (scan_once f) (('"' :: encStrBody s.data ++ ['"']) ++ rest) pos =
        .ok (.str s, rest, pos + ('"' :: encStrBody s.data ++ ['"']).length)
      simp only [List.cons_append, List.append_assoc, List.singleton_append, List.nil_append]
      simp only [scanBody]
      rw [if_pos trivial]
      rw [scanStr_rt s.data ((encStrBody s.data ++ '"' :: rest).length + 1) rest [] (pos + 1) pos
        (by simp only [List.length_append, List.length_cons]; omega)]
      have hs : String.mk s.data = s := String.ext rfl
      simp only [List.reverse_nil, List.nil_append, hs, List.length_append, List.length_cons,
        List.length_nil, Except.ok.injEq, Prod.mk.injEq]
      exact ⟨by trivial, by trivial, by omega⟩
  | .arr [], _, ind, lvl, fuel, rest, pos, hfuel, _ => by
      obtain ⟨f, rfl⟩ : ∃ f, fuel = f + 1 :=
        ⟨fuel - 1, by have h1 : jdepth (JValue.arr []) = 1 := rfl; omega⟩
      rfl
  | .obj [], _, ind, lvl, fuel, rest, pos, hfuel, _ => by
      obtain ⟨f, rfl⟩ : ∃ f, fuel = f + 1 :=
        ⟨fuel - 1, by have h1 : jdepth (JValue.obj []) = 1 := rfl; omega⟩
      rfl
  | .arr (x :: xs), hwf, ind, lvl, fuel, rest, pos, hfuel, hstop => by
      have hL : JWfL (x :: xs) := hwf
      obtain ⟨hx, hxs⟩ := hL
      have hdep : jdepthL (x :: xs) + 1 ≤ fuel := hfuel
      obtain ⟨f, rfl⟩ : ∃ f, fuel = f + 1 := ⟨fuel - 1, by omega⟩
      have hf : jdepthL (x :: xs) ≤ f := by omega
      show scanBody (scan_once f)
          (('[' :: encNl ind (lvl + 1) ++ encVal x ind (lvl + 1) ++ encItems xs ind (lvl + 1)
            ++ encNl ind lvl ++ [']']) ++ rest) pos =
        .ok (.arr (x :: xs), rest, pos + ('[' :: encNl ind (lvl + 1) ++ encVal x ind (lvl + 1)
            ++ encItems xs ind (lvl + 1) ++ encNl ind lvl ++ [']']).length)
      simp only [List.cons_append, List.append_assoc, List.singleton_append, List.nil_append]
      rw [scanBody_lbracket_val (scan_once f) (encNl ind (lvl + 1)) (encNl_ws ind (lvl + 1))
        (encVal x ind (lvl + 1) ++ (encItems xs ind (lvl + 1) ++ (encNl ind lvl ++ ']' :: rest)))
        (by
          intro hnil
          exact (encVal_head x hx ind (lvl + 1)).1 (List.append_eq_nil.mp hnil).1)
        (notWsStart_append (encVal_head x hx ind (lvl + 1)).1
          (encVal_head x hx ind (lvl + 1)).2 _)
        (by
          intro c hc
          rw [head?_append_of_ne_nil (encVal_head x hx ind (lvl + 1)).1] at hc
          exact encVal_head_ne_rb x hx ind (lvl + 1) c hc)
        pos]
      rw [elemsLoop_rt (scan_once f) ind (lvl + 1) (encNl ind lvl) (encNl_ws ind lvl) xs x []
        ((encVal x ind (lvl + 1) ++ (encItems xs ind (lvl + 1)
          ++ (encNl ind lvl ++ ']' :: rest))).length + 1)
        rest (pos + 1 + (encNl ind (lvl + 1)).length)
        (fun y hy rest2 pos2 hstop2 =>
          scan_enc y ((JWfL_iff (x :: xs)).mp ⟨hx, hxs⟩ y hy) ind (lvl + 1) f rest2 pos2
            (le_trans (jdepthL_ge (x :: xs) y hy) hf) hstop2)
        ⟨hx, hxs⟩
        (by
          have h1 := encItems_length_ge xs hxs ind (lvl + 1)
          simp only [List.length_append, List.length_cons]
          omega)]
      simp only [List.nil_append, Except.ok.injEq, Prod.mk.injEq, List.length_append,
        List.length_cons, List.length_nil]
      exact ⟨by trivial, by trivial, by omega⟩
  | .obj (⟨k, v⟩ :: ps), hwf, ind, lvl, fuel, rest, pos, hfuel, hstop => by
      obtain ⟨hkeys, hP⟩ := hwf
      obtain ⟨hv, hps⟩ := hP
      have hdep : jdepthP ((k, v) :: ps) + 1 ≤ fuel := hfuel
      obtain ⟨f, rfl⟩ : ∃ f, fuel = f + 1 := ⟨fuel - 1, by omega⟩
      have hf : jdepthP ((k, v) :: ps) ≤ f := by omega
      show scanBody (scan_once f)
          (('\x7b' :: encNl ind (lvl + 1)
            ++ (('"' :: encStrBody k.data ++ ['"']) ++ [':', ' '] ++ encVal v ind (lvl + 1))
            ++ encPairs ps ind (lvl + 1) ++ encNl ind lvl ++ ['\x7d']) ++ rest) pos =
        .ok (.obj ((k, v) :: ps), rest, pos + ('\x7b' :: encNl ind (lvl + 1)
            ++ (('"' :: encStrBody k.data ++ ['"']) ++ [':', ' '] ++ encVal v ind (lvl + 1))
            ++ encPairs ps ind (lvl + 1) ++ encNl ind lvl ++ ['\x7d']).length)
      simp only [List.cons_append, List.append_assoc, List.singleton_append, List.nil_append]
      rw [scanBody_lbrace_members (scan_once f) (encNl ind (lvl + 1)) (encNl_ws ind (lvl + 1))
        (encStrBody k.data ++ ('"' :: ':' :: ' ' :: (encVal v ind (lvl + 1)
          ++ (encPairs ps ind (lvl + 1) ++ (encNl ind lvl ++ '\x7d' :: rest))))) pos]
      rw [membersLoop_rt (scan_once f) ind (lvl + 1) (encNl ind lvl) (encNl_ws ind lvl) ps k v []
        ((encStrBody k.data ++ ('"' :: ':' :: ' ' :: (encVal v ind (lvl + 1)
          ++ (encPairs ps ind (lvl + 1) ++ (encNl ind lvl ++ '\x7d' :: rest))))).length + 1)
        rest (pos + 1 + (encNl ind (lvl + 1)).length + 1)
        (fun q hq rest2 pos2 hstop2 =>
          scan_enc q.2 ((JWfP_iff ((k, v) :: ps)).mp ⟨hv, hps⟩ q hq) ind (lvl + 1) f rest2 pos2
            (le_trans (jdepthP_ge ((k, v) :: ps) q hq) hf) hstop2)
        ⟨hv, hps⟩
        (by simpa using hkeys)
        (by
          have h1 := encPairs_length_ge ps hps ind (lvl + 1)
          simp only [List.length_append, List.length_cons]
          omega)]
      simp only [List.nil_append, Except.ok.injEq, Prod.mk.injEq, List.length_append,
        List.length_cons, List.length_nil]
      exact ⟨by trivial, by trivial, by omega⟩
termination_by v _h _i _l _fu _r _p _hf _hs => sizeOf v
decreasing_by
all_goals simp_wf
· have h1 := List.sizeOf_lt_of_mem hy
  simp at h1
  omega
· have h1 := List.sizeOf_lt_of_mem hq
  rcases q with ⟨a, b⟩
  simp at h1 ⊢
  omega

/-- `json.loads` inverts `json.dumps` on well-formed values, for every
indent setting. -/
theorem json_loads_dumps (v : JValue) (hwf : JWf v) (ind : Option Int) :
    json_loads_err (json_dumps v ind) = .ok v := by
  have hhead := encVal_head v hwf ind 0
  have h2 := scan_enc v hwf ind 0 ((encVal v ind 0).length + 1) [] 0
    (by have := jdepth_le_enc v hwf ind 0; omega) (by intro c hc; simp at hc)
  rw [List.append_nil] at h2
  simp only [json_loads_err, json_dumps]
  rw [skipWs_eq_self (encVal v ind 0) hhead.2 0]
  dsimp only
  rw [h2]
  rfl

/-- Values returned by `json.loads` are well-formed: float tokens match the
number grammar and object keys are deduplicated. -/
theorem json_loads_err_wf (s : String) (v : JValue) (h : json_loads_err s = .ok v) :
    JWf v := by
  unfold json_loads_err at h
  dsimp only at h
  rcases hsw : skipWs s.data 0 with ⟨cs1, p1⟩
  rw [hsw] at h
  dsimp only at h
  rcases hsc : scan_once (s.data.length + 1) cs1 p1 with e | ⟨w, cs2, p2⟩
  · rw [hsc] at h
    exact absurd h (by simp)
  · rw [hsc] at h
    dsimp only at h
    rcases hsw2 : skipWs cs2 p2 with ⟨cs3, p3⟩
    rw [hsw2] at h
    dsimp only at h
    cases cs3 with
    | nil =>
      simp only [Except.ok.injEq] at h
      subst h
      exact scan_once_wf _ _ _ _ _ _ hsc
    | cons a l => exact absurd h (by simp)

/-- C2: for every input text that is valid JSON (its parse succeeds) and
contains no single-quote character, the Normalizer returns Success, its
`formatted` text is the serialization of the parsed value, and parsing that
text yields a value deeply equal to the parse of the original input
(round-trip). -/
theorem claim_C2_round_trip (s : String) (ind : Option Int) (v : JValue)
    (hparse : json_loads_err s = .ok v) (hsq : sqChar ∉ s.data) :
    (format_json ⟨s, ind⟩).success = true ∧
    (format_json ⟨s, ind⟩).formatted = some (json_dumps v ind) ∧
    json_loads_err (json_dumps v ind) = .ok v := by
  have htext : pyReplaceChar s sqChar '"' = s := pyReplaceChar_sq_id s hsq
  have hwf : JWf v := json_loads_err_wf s v hparse
  refine ⟨?_, ?_, json_loads_dumps v hwf ind⟩ <;>
    simp [format_json, htext, hparse]

theorem claim_C2_round_trip_witness :
    (json_loads_err "[1, 2]" = .ok (.arr [.int 1, .int 2])
      ∧ sqChar ∉ "[1, 2]".data) ∧
    ((format_json ⟨"[1, 2]", some 4⟩).success = true ∧
     (format_json ⟨"[1, 2]", some 4⟩).formatted
        = some (json_dumps (.arr [.int 1, .int 2]) (some 4)) ∧
     json_loads_err (json_dumps (.arr [.int 1, .int 2]) (some 4))
        = .ok (.arr [.int 1, .int 2])) :=
  ⟨⟨by rfl, by decide⟩,
    claim_C2_round_trip "[1, 2]" (some 4) (.arr [.int 1, .int 2]) (by rfl) (by decide)⟩
